import Mathlib

/-!
# Aurora Life OS — verification of the autonomous scheduling core

Shallow embedding of the slot-finding, conflict-resolution and
dependency-propagation algorithms of the Aurora Life OS backend:

* `find_available_slots` — `AutonomousSchedulingService._find_available_slots`
  (backend/app/services/autonomous_scheduling_service.py)
* `analyze_energy_patterns` — `AutonomousSchedulingService._analyze_energy_patterns`
* `find_best_slot_for_task` / `scoreSlot` — `AutonomousSchedulingService._find_best_slot_for_task`
* `create_routine_blocks`, `schedule_task_sequentially` — backend/app/routers/ai_calendar.py
* `smart_reschedule_dependent_events`, `find_conflict_free_slot` —
  backend/app/services/ai_calendar_service.py

Conventions of the embedding:

* A `datetime` is an integer number of minutes since an epoch midnight;
  day `d` covers minutes `[1440*d, 1440*(d+1))`.  All datetimes appearing in
  the Python code are whole minutes.  `t.date()` is `t / 1440` (floor
  division), `t.hour` is `t % 1440 / 60`.
* Day 0 of the epoch is a Monday, so `d % 7 = 6` means Sunday; Python's
  `strftime('%A')` weekday names are modelled as the numbers 0..6.
* Python's `(t2 - t1).seconds // 60` on whole-minute datetimes equals
  `(t2 - t1) % 1440` (timedelta normalisation keeps `0 ≤ seconds < 86400`),
  which is what `durMin` computes; this also reproduces the behaviour on
  negative differences.
* Python's stable `list.sort` / `sorted` is modelled by
  `List.insertionSort`, which is also stable, hence produces the identical
  list for identical inputs.
* `datetime.now()` is modelled by an explicit `today` parameter.
* Database queries filtered by `user_id` are modelled by plain lists: every
  embedded function operates on the single user's events.
-/

namespace Aurora

/-- `t.date()` as a day index (floor division by minutes-per-day). -/
def dateOf (t : Int) : Int := t / 1440

/-- Minutes past midnight of `t`. -/
def todOf (t : Int) : Int := t % 1440

/-- `t.hour`. -/
def hourOf (t : Int) : Int := t % 1440 / 60

/-- `strftime('%A')` of a day index, as a number 0..6 (0 = Monday, 6 = Sunday). -/
def weekdayOf (d : Int) : Int := d % 7

/-- Python's `(b - a).seconds // 60` for whole-minute datetimes. -/
def durMin (a b : Int) : Int := (b - a) % 1440

/-- Two half-open intervals `[s1, e1)` and `[s2, e2)` overlap. -/
def overlaps (s1 e1 s2 e2 : Int) : Prop := s1 < e2 ∧ s2 < e1

instance (s1 e1 s2 e2 : Int) : Decidable (overlaps s1 e1 s2 e2) := by
  unfold overlaps; infer_instance

/-- A `CalendarEvent` row restricted to the fields the scheduling core reads.
`depends_on` models the `depends_on_event_ids` column (the SQL
`LIKE '%id%'` lookup of dependents is modelled as exact id membership). -/
structure CalEvent where
  id : Int
  start_time : Int
  end_time : Int
  depends_on : List Int := []
  dependency_type : Option String := none
  auto_reschedule_enabled : Bool := true
  reschedule_buffer_minutes : Option Int := none
  reschedule_count : Int := 0
deriving Repr, DecidableEq

/-- The scheduling preferences dict returned by `_get_user_preferences`
(times as minutes past midnight, durations in minutes). -/
structure Prefs where
  work_start : Int
  work_end : Int
  lunch_start : Int
  lunch_duration : Int
  min_task_duration : Int
  no_work_days : List Int
deriving Repr, DecidableEq

/-- The hard-coded defaults of `_get_user_preferences`:
work 09:00–18:00, lunch 12:00 + 60 min, min task 15 min, no-work-days = [Sunday]. -/
def defaultPrefs : Prefs :=
  { work_start := 540, work_end := 1080, lunch_start := 720,
    lunch_duration := 60, min_task_duration := 15, no_work_days := [6] }

/-- An available-slot dict emitted by `_find_available_slots`. -/
structure AvailableSlot where
  start_time : Int
  end_time : Int
  duration_minutes : Int
  date : Int
  type : String
deriving Repr, DecidableEq

/-!
## Availability Finder (`_find_available_slots`)

The per-day walk keeps a cursor that starts at `work_start`; for each event
(sorted by `start_time`) a gap `[cursor, event.start)` is emitted, split
around the lunch window, then the cursor is assigned `event.end_time`
(direct assignment in the source — not `max`).  After the events a trailing
gap up to `work_end` is emitted, again split around lunch.
-/

/-- The "gap overlaps lunch" sub-step of the per-event gap emission of
`_find_available_slots`: when the cursor is before `lsA` and the event
starts after `lsA`, emit the pre-lunch piece `[cur, lsA)` (if long enough)
and move the cursor to the lunch end `leA`. -/
def lunchSplit (p : Prefs) (d lsA leA cur eStart : Int)
    (acc : List AvailableSlot) : Int × List AvailableSlot :=
  if cur < lsA ∧ eStart > lsA then
    (leA, if lsA - cur ≥ p.min_task_duration then
      acc ++ [⟨cur, lsA, durMin cur lsA, d, "morning"⟩] else acc)
  else (cur, acc)

/-- The "add slot if it doesn't overlap with lunch" sub-step: emit
`[cur1, eStart)` when `cur1 ≥ leA` or `eStart ≤ lsA` and the gap is long
enough. -/
def gapEmit (p : Prefs) (d lsA leA cur1 eStart : Int)
    (acc1 : List AvailableSlot) : List AvailableSlot :=
  if cur1 ≥ leA ∨ eStart ≤ lsA then
    if durMin cur1 eStart ≥ p.min_task_duration then
      acc1 ++ [⟨cur1, eStart, durMin cur1 eStart, d,
        if hourOf cur1 ≥ 12 then "afternoon" else "morning"⟩]
    else acc1
  else acc1

/-- Body of the `if current_time < event['start_time']` block of
`_find_available_slots`: emit the gap `[cur, eStart)`, split around the
lunch window `[lsA, leA)`. -/
def gapSlots (p : Prefs) (d lsA leA : Int) (cur eStart : Int)
    (acc : List AvailableSlot) : Int × List AvailableSlot :=
  ((lunchSplit p d lsA leA cur eStart acc).1,
   gapEmit p d lsA leA (lunchSplit p d lsA leA cur eStart acc).1 eStart
     (lunchSplit p d lsA leA cur eStart acc).2)

/-- The per-day event loop of `_find_available_slots`.  After each event the
cursor is assigned `event.end_time` (the gap-processing cursor is local to
the gap, exactly as in the source). -/
def walkEvents (p : Prefs) (d lsA leA : Int) :
    Int → List CalEvent → List AvailableSlot → Int × List AvailableSlot
  | cur, [], acc => (cur, acc)
  | cur, e :: rest, acc =>
    let acc' := if cur < e.start_time then (gapSlots p d lsA leA cur e.start_time acc).2 else acc
    walkEvents p d lsA leA e.end_time rest acc'

/-- The "handle lunch if not already passed" sub-step of the trailing gap:
when the cursor is before `lsA`, emit `[cur, lsA)` (if long enough) and
move the cursor to the lunch end. -/
def trailLunch (p : Prefs) (d lsA leA cur : Int)
    (acc : List AvailableSlot) : Int × List AvailableSlot :=
  if cur < lsA then
    (leA, if lsA - cur ≥ p.min_task_duration then
      acc ++ [⟨cur, lsA, durMin cur lsA, d, "morning"⟩] else acc)
  else (cur, acc)

/-- The "add final slot" sub-step of the trailing gap: emit `[cur1, weA)`
when the cursor is still before work end and the gap is long enough. -/
def trailEmit (p : Prefs) (d weA cur1 : Int)
    (acc1 : List AvailableSlot) : List AvailableSlot :=
  if cur1 < weA then
    if durMin cur1 weA ≥ p.min_task_duration then
      acc1 ++ [⟨cur1, weA, durMin cur1 weA, d,
        if hourOf cur1 ≥ 12 then "afternoon" else "morning"⟩]
    else acc1
  else acc1

/-- The "slot after last event" block of `_find_available_slots`. -/
def trailingSlots (p : Prefs) (d lsA leA weA : Int) (cur : Int)
    (acc : List AvailableSlot) : List AvailableSlot :=
  if cur < weA then
    trailEmit p d weA (trailLunch p d lsA leA cur acc).1
      (trailLunch p d lsA leA cur acc).2
  else acc

/-- One day of `_find_available_slots`: filter the day's events, sort them
(stably) by start time, run the cursor walk, then the trailing gap. -/
def daySlots (events : List CalEvent) (p : Prefs) (d : Int) : List AvailableSlot :=
  let wsA := d * 1440 + p.work_start
  let weA := d * 1440 + p.work_end
  let lsA := d * 1440 + p.lunch_start
  let leA := lsA + p.lunch_duration
  let dayEvents := List.insertionSort (fun a b => a.start_time ≤ b.start_time)
    (events.filter (fun e => dateOf e.start_time = d))
  let res := walkEvents p d lsA leA wsA dayEvents []
  trailingSlots p d lsA leA weA res.1 res.2

/-- `AutonomousSchedulingService._find_available_slots`: iterate the days of
the horizon starting at `today` (= `datetime.now().date()`), skipping
`no_work_days`. -/
def find_available_slots (events : List CalEvent) (p : Prefs)
    (days_ahead : Nat) (today : Int) : List AvailableSlot :=
  (List.range days_ahead).flatMap (fun off =>
    let d := today + (off : Int)
    if weekdayOf d ∈ p.no_work_days then [] else daySlots events p d)

/-!
## Routine Block Builder and Sequential Task Placer (routers/ai_calendar.py)

The regex extraction of routine times from the free-text `user_context`
(`r'[Gg]ym[^:]*:\s*(\d{1,2}:\d{2})'` and friends) is modelled as a record of
the extracted times: a field is `none` exactly when the corresponding
pattern does not match, and `some m` (minutes past midnight) when it
matches the time `m`.  The work-hours pattern extracts a start/end pair or
nothing.
-/

/-- Routine times extracted from `user_context` by the fixed regexes. -/
structure RoutineDesc where
  wake : Option Int := none
  gym : Option Int := none
  lunch : Option Int := none
  dinner : Option Int := none
  sleep : Option Int := none
  work : Option (Int × Int) := none
deriving Repr, DecidableEq

/-- A protected time block produced by `create_routine_blocks`
(the human-readable `description` string is omitted: no scheduling code
reads it). -/
structure RoutineBlock where
  start : Int
  stop : Int
  type : String
deriving Repr, DecidableEq

/-- `create_routine_blocks(user_context, date)`: build the protected blocks
for one target date and sort them by start time.  Paddings are the fixed
ones of the source: gym `[t−30, t+90]`, lunch `[t, t+60]`,
dinner `[t, t+90]`, sleep-before-wake `[00:00, wake)`, after-sleep
`[sleep, next day 23:59]`, plus pre-work `[wake, work_start)` when
`wake < work_start` and post-work `[work_end, sleep)` when
`work_end < sleep`. -/
def create_routine_blocks (desc : RoutineDesc) (d : Int) : List RoutineBlock :=
  let base := d * 1440
  let blocks : List RoutineBlock :=
    (match desc.wake with
      | some w => [⟨base, base + w, "sleep/wake"⟩]
      | none => []) ++
    (match desc.gym with
      | some g => [⟨base + g - 30, base + g + 90, "gym"⟩]
      | none => []) ++
    (match desc.lunch with
      | some l => [⟨base + l, base + l + 60, "lunch"⟩]
      | none => []) ++
    (match desc.dinner with
      | some t => [⟨base + t, base + t + 90, "dinner"⟩]
      | none => []) ++
    (match desc.sleep with
      | some s => [⟨base + s, (d + 1) * 1440 + 1439, "sleep"⟩]
      | none => []) ++
    (match desc.work with
      | some (ws, we) =>
        (match desc.wake with
          | some w => if w < ws then [⟨base + w, base + ws, "pre-work"⟩] else []
          | none => []) ++
        (match desc.sleep with
          | some s => if base + we < base + s then [⟨base + we, base + s, "post-work"⟩] else []
          | none => [])
      | none => [])
  List.insertionSort (fun a b => a.start ≤ b.start) blocks

/-- `schedule_task_sequentially(task_start_time, duration_minutes,
routine_blocks, user_context, db, user_id)` from routers/ai_calendar.py.

The source recurses on itself on every conflict with no bound; the `fuel`
argument models the Python call stack: `none` is the `RecursionError` the
source would raise when the recursion never reaches a conflict-free slot.
On each call: if the task would end past the day's work end, jump to the
next day's work start; otherwise move past the first overlapping routine
block plus a 15-minute buffer, then past the first overlapping same-day
event plus a 15-minute buffer; with no overlap the current time is
returned. -/
def schedule_task_sequentially (fuel : Nat) (events : List CalEvent)
    (desc : RoutineDesc) (blocks : List RoutineBlock)
    (t : Int) (dur : Int) : Option Int :=
  match fuel with
  | 0 => none
  | fuel + 1 =>
    let workEnd := match desc.work with
      | some wp => wp.2
      | none => 1080
    let taskEnd := t + dur
    let workEndDt := dateOf t * 1440 + workEnd
    if taskEnd > workEndDt then
      let workStart := match desc.work with
        | some wp => wp.1
        | none => 540
      schedule_task_sequentially fuel events desc blocks
        ((dateOf t + 1) * 1440 + workStart) dur
    else
      match blocks.find? (fun b => decide (t < b.stop ∧ taskEnd > b.start)) with
      | some b => schedule_task_sequentially fuel events desc blocks (b.stop + 15) dur
      | none =>
        match (events.filter (fun e => dateOf e.start_time = dateOf t)).find?
            (fun e => decide (t < e.end_time ∧ taskEnd > e.start_time)) with
        | some e => schedule_task_sequentially fuel events desc blocks (e.end_time + 15) dur
        | none => some t

/-- The strict-sequential batch loop of the hourly-schedule endpoint
(routers/ai_calendar.py, around the `schedule_task_sequentially` call):
each task duration is placed with `schedule_task_sequentially`; if the
returned start date is past tomorrow the loop breaks (the task and the rest
stay unscheduled); otherwise the event is persisted (added to the event
list) and the cursor moves to its end plus a 15-minute buffer.  Returns the
accepted start times in order. -/
def batchSchedule (fuel : Nat) (desc : RoutineDesc) (blocks : List RoutineBlock)
    (today : Int) : List CalEvent → List Int → Int → List Int
  | _, [], _ => []
  | events, dur :: rest, cur =>
    match schedule_task_sequentially fuel events desc blocks cur dur with
    | none => []
    | some t =>
      if dateOf t > today + 1 then []
      else
        t :: batchSchedule fuel desc blocks today
          ({ id := 0, start_time := t, end_time := t + dur } :: events)
          rest (t + dur + 15)

/-!
## Energy Pattern Analyzer (`_analyze_energy_patterns`)

Mood entries carry a timestamp and 1–10 energy/mood levels.  Hour buckets
are averaged (Python float division is modelled by exact rational division;
the claims proved below depend only on each bucket having a single average
value, not on rounding).  `sorted(..., reverse=True)` (stable, descending
by average) is modelled by the stable `insertionSort` with the reversed
order.  Weekday names are modelled as the numbers 0..6; Python dict
insertion order (first occurrence) is reproduced by `firstKeys`. -/

structure MoodEntry where
  created_at : Int
  energy_level : Int
  mood_level : Int
deriving Repr, DecidableEq

/-- The profile dict returned by `_analyze_energy_patterns` (the
`energy_by_hour`/`mood_by_hour` sub-dicts are carried as association
lists). -/
structure EnergyPatterns where
  peak_hours : List Int := []
  low_hours : List Int := []
  energy_by_hour : List (Int × ℚ) := []
  best_days : List Int := []
  patterns_available : Bool := true
deriving DecidableEq

/-- Mean energy of the entries created in hour `h` (the value stored by
`energy_by_hour[hour]`). -/
def hourAvgQ (entries : List MoodEntry) (h : Int) : ℚ :=
  let vals := (entries.filter (fun e => hourOf e.created_at = h)).map (·.energy_level)
  ((vals.map (fun v => (v : ℚ))).sum) / (vals.length : ℚ)

/-- Python dict keys in first-occurrence order. -/
def firstKeys (l : List Int) : List Int :=
  l.foldl (fun acc w => if w ∈ acc then acc else acc ++ [w]) []

/-- The `energy_by_hour` dict of `_analyze_energy_patterns`: for each hour
0..23 with at least one entry (in ascending hour order, matching the
`for hour in range(24)` insertion order), the bucket mean. -/
def energyByHour (entries : List MoodEntry) : List (Int × ℚ) :=
  (List.range 24).filterMap (fun h =>
    if (entries.filter (fun e => hourOf e.created_at = (h : Int))).isEmpty then none
    else some ((h : Int), hourAvgQ entries (h : Int)))

/-- `sorted(energy_by_hour.items(), key=..., reverse=True)`: stable
descending sort by bucket mean. -/
def sortedHours (entries : List MoodEntry) : List (Int × ℚ) :=
  List.insertionSort (fun a b => b.2 ≤ a.2) (energyByHour entries)

/-- `AutonomousSchedulingService._analyze_energy_patterns`: bucket the mood
entries by hour, average, sort the buckets by average descending (stably),
take the top-4 hours with mean ≥ 6 as `peak_hours` and the bottom-4 with
mean < 5 as `low_hours`; `best_days` are the top-3 weekdays by mean.  An
empty entry list yields the fixed default profile. -/
def analyze_energy_patterns (entries : List MoodEntry) : EnergyPatterns :=
  if entries.isEmpty then
    { peak_hours := [10, 11, 14, 15], low_hours := [13, 17, 18],
      best_days := [1, 2, 3], patterns_available := false }
  else
    let peak_hours := (((sortedHours entries).take 4).filter (fun x => 6 ≤ x.2)).map (·.1)
    let low_hours :=
      (((sortedHours entries).drop ((sortedHours entries).length - 4)).filter
        (fun x => x.2 < 5)).map (·.1)
    let dayKeys := firstKeys (entries.map (fun e => weekdayOf (dateOf e.created_at)))
    let avg_by_day : List (Int × ℚ) := dayKeys.map (fun w =>
      let vals := (entries.filter
        (fun e => weekdayOf (dateOf e.created_at) = w)).map (·.energy_level)
      (w, ((vals.map (fun v => (v : ℚ))).sum) / (vals.length : ℚ)))
    let best_days := ((List.insertionSort (fun a b => b.2 ≤ a.2) avg_by_day).take 3).map (·.1)
    { peak_hours := peak_hours, low_hours := low_hours,
      energy_by_hour := energyByHour entries, best_days := best_days,
      patterns_available := true }

/-!
## Slot Scorer & Selector (`_find_best_slot_for_task`)
-/

/-- The task fields the scorer reads (`task_type`/`priority` enum values as
their string values, nullable columns as options). -/
structure TaskLite where
  estimated_duration : Option Int := none
  task_type : Option String := none
  priority : String := "medium"
deriving Repr, DecidableEq

/-- Python's `task.estimated_duration or 30` (`None` and `0` are falsy). -/
def estOr30 (task : TaskLite) : Int :=
  match task.estimated_duration with
  | some v => if v = 0 then 30 else v
  | none => 30

/-- The per-slot score accumulation of `_find_best_slot_for_task`:
+30 if the start hour is a peak hour, elif −20 if a low hour; +20 if the
task is research and the slot type is morning, elif the urgency bonus
`max(0, 10 − 2*days_away)` for urgent tasks; +10 if the weekday is a best
day. -/
def scoreSlot (task : TaskLite) (patterns : EnergyPatterns) (today : Int)
    (slot : AvailableSlot) : Int :=
  let score : Int := 0
  let score := if hourOf slot.start_time ∈ patterns.peak_hours then score + 30
    else if hourOf slot.start_time ∈ patterns.low_hours then score - 20
    else score
  let score := if task.task_type = some "research" ∧ slot.type = "morning" then score + 20
    else if task.priority = "urgent" then
      score + max 0 (10 - (dateOf slot.start_time - today) * 2)
    else score
  if weekdayOf (dateOf slot.start_time) ∈ patterns.best_days then score + 10 else score

/-- `AutonomousSchedulingService._find_best_slot_for_task`: drop slots
shorter than the task, score the rest, and return the first slot attaining
the maximal score (Python's `max(..., key=...)`), or `none` when nothing
qualifies.  The result pairs the chosen slot with its score. -/
def find_best_slot_for_task (task : TaskLite) (slots : List AvailableSlot)
    (patterns : EnergyPatterns) (today : Int) : Option (AvailableSlot × Int) :=
  let scored := (slots.filter (fun s => ¬ s.duration_minutes < estOr30 task)).map
    (fun s => (s, scoreSlot task patterns today s))
  match scored with
  | [] => none
  | x :: xs => some (xs.foldl (fun b y => if y.2 > b.2 then y else b) x)

/-!
## Dependency Rescheduler (`smart_reschedule_dependent_events`,
`_find_conflict_free_slot` — services/ai_calendar_service.py)

The database is modelled as the user's event list; in-place ORM mutation is
modelled by rebuilding the list with `updateById`. -/

/-- Update every event with the given id (ids are unique in a real
database; the update function of the source never changes the id). -/
def updateById (db : List CalEvent) (i : Int) (f : CalEvent → CalEvent) : List CalEvent :=
  db.map (fun e => if e.id = i then f e else e)

/-- The search loop of `_find_conflict_free_slot`: starting at `t`, try
30-minute steps while `current < preferred + 7 days`; a step succeeds when
no other event overlaps `[current, current + dur)` and the hour is within
8..20.  The 7-day window of 30-minute steps is exactly 336 iterations,
passed as the starting counter. -/
def findSlotGo (db : List CalEvent) (dur : Int) (exclId : Int) :
    Nat → Int → Option Int
  | 0, _ => none
  | n + 1, t =>
    let pend := t + dur
    let conflicts := (db.filter (fun e =>
      decide (e.id ≠ exclId ∧ e.start_time < pend ∧ e.end_time > t))).length
    if conflicts = 0 ∧ 8 ≤ hourOf t ∧ hourOf t ≤ 20 then some t
    else findSlotGo db dur exclId n (t + 30)

/-- `AICalendarService._find_conflict_free_slot` with the default
`max_search_days = 7`: `while current_time < preferred_start + 7 days`
stepping 30 minutes means exactly `7*1440/30 = 336` loop iterations. -/
def find_conflict_free_slot (db : List CalEvent) (preferred_start : Int)
    (dur : Int) (exclude_event_id : Int) : Option Int :=
  findSlotGo db dur exclude_event_id 336 preferred_start

/-- The mutable state of the dependent-processing loop: the event store
plus the `rescheduled_events` and `conflicts` output lists (tracked by
event id). -/
structure RescheduleState where
  db : List CalEvent
  rescheduled : List Int
  conflicts : List Int
deriving Repr, DecidableEq

/-- `dependent_event.dependency_type or 'sequential'` — Python `or` treats
`None` and the empty string as falsy. -/
def depTypeOf (dep : CalEvent) : String :=
  match dep.dependency_type with
  | some s => if s = "" then "sequential" else s
  | none => "sequential"

/-- `dependent_event.reschedule_buffer_minutes or 15` — Python `or` treats
`None` and `0` as falsy. -/
def depBufferOf (dep : CalEvent) : Int :=
  match dep.reschedule_buffer_minutes with
  | some b => if b = 0 then 15 else b
  | none => 15

/-- The candidate new start of a dependent, dispatched on the dependency
type: `sequential` → moved end + buffer; `same_day` → stay after the moved
event on its new day; `before_deadline` (the `else`) → keep the original
start. -/
def candidateStart (newStart newEnd : Int) (dep : CalEvent) : Int :=
  if depTypeOf dep = "sequential" then newEnd + depBufferOf dep
  else if depTypeOf dep = "same_day" then
    if dateOf newStart = dateOf dep.start_time then
      max (newEnd + depBufferOf dep) dep.start_time
    else
      if dateOf newStart * 1440 + todOf dep.start_time ≤ newEnd then
        newEnd + depBufferOf dep
      else dateOf newStart * 1440 + todOf dep.start_time
  else dep.start_time

/-- One iteration of the `for dependent_event in dependent_events` loop of
`smart_reschedule_dependent_events`.  A dependent with
`auto_reschedule_enabled = false` is only reported in `conflicts`;
otherwise a conflict-free slot is searched from the candidate start, and on
success the dependent is moved there, else it is reported in `conflicts`. -/
def processDependent (newStart newEnd : Int) (st : RescheduleState)
    (depId : Int) : RescheduleState :=
  match st.db.find? (fun e => e.id = depId) with
  | none => st
  | some dep =>
    if ¬ dep.auto_reschedule_enabled then
      { st with conflicts := st.conflicts ++ [depId] }
    else
      match find_conflict_free_slot st.db (candidateStart newStart newEnd dep)
          (dep.end_time - dep.start_time) depId with
      | some ft =>
        { db := updateById st.db depId (fun e =>
            { e with start_time := ft, end_time := ft + (dep.end_time - dep.start_time), reschedule_count := e.reschedule_count + 1 }),
          rescheduled := st.rescheduled ++ [depId],
          conflicts := st.conflicts }
      | none => { st with conflicts := st.conflicts ++ [depId] }

/-- Ids of the events depending on `movedId` (the SQL
`depends_on_event_ids LIKE '%movedId%'` modelled as id membership). -/
def dependentIds (db : List CalEvent) (movedId : Int) : List Int :=
  (db.filter (fun e => movedId ∈ e.depends_on)).map (fun e => e.id)

/-- The result dict of `smart_reschedule_dependent_events`
(`summary.total_affected = len(dependent_events)`). -/
structure RescheduleResult where
  db : List CalEvent
  rescheduled : List Int
  conflicts : List Int
  total_affected : Nat
deriving Repr, DecidableEq

/-- `AICalendarService.smart_reschedule_dependent_events`: move the event
to its new start (duration kept), then process every dependent in turn;
`none` models the `{'success': False}` return when the moved event is not
found. -/
def smart_reschedule_dependent_events (db : List CalEvent) (movedId : Int)
    (newStart : Int) : Option RescheduleResult :=
  match db.find? (fun e => e.id = movedId) with
  | none => none
  | some moved =>
    let dur := moved.end_time - moved.start_time
    let newEnd := newStart + dur
    let db1 := updateById db movedId (fun e =>
      { e with start_time := newStart, end_time := newEnd, reschedule_count := e.reschedule_count + 1 })
    let deps := dependentIds db movedId
    let st := deps.foldl (processDependent newStart newEnd) ⟨db1, [], []⟩
    some ⟨st.db, st.rescheduled, st.conflicts, deps.length⟩

/-- `b` agrees with `a` on every field except the schedule position and the
reschedule counter, and has the same duration.  Every write of
`smart_reschedule_dependent_events` goes through `updateById` with an
update that only moves `start_time`/`end_time` rigidly and bumps
`reschedule_count`, so this relation is preserved positionally. -/
def SameFrame (a b : CalEvent) : Prop :=
  b.id = a.id ∧ b.depends_on = a.depends_on ∧
  b.dependency_type = a.dependency_type ∧
  b.auto_reschedule_enabled = a.auto_reschedule_enabled ∧
  b.reschedule_buffer_minutes = a.reschedule_buffer_minutes ∧
  b.end_time - b.start_time = a.end_time - a.start_time

/-- The store holds `dep`, unchanged, as the only carrier of its id. -/
def KeepsDep (dep : CalEvent) (db : List CalEvent) : Prop :=
  ∀ e ∈ db, e.id = dep.id → e = dep

/-!
## Theorems
-/

/-- **C7**: with exactly one existing event 10:00–11:00 on a single work
day (a Monday, default preferences: work 09:00–18:00, lunch 12:00–13:00),
the Availability Finder returns exactly the slots 09:00–10:00 (60 min),
11:00–12:00 and 13:00–18:00 — the post-event free time split around the
lunch window — in that order. -/
theorem availability_scenario_b :
    find_available_slots [{ id := 1, start_time := 600, end_time := 660 }]
      defaultPrefs 1 0 =
      [⟨540, 600, 60, 0, "morning"⟩, ⟨660, 720, 60, 0, "morning"⟩,
       ⟨780, 1080, 300, 0, "afternoon"⟩] := by decide

/-- **C2 counterexample**: with the single event 10:00–12:30 on a Monday and
the default preferences, the Availability Finder emits the slot
12:30–18:00, whose interval intersects the lunch window 12:00–13:00 — so
not every returned slot avoids `[lunch_start, lunch_start+lunch_duration)`. -/
theorem availability_lunch_overlap_cex :
    ∃ s ∈ find_available_slots [{ id := 1, start_time := 600, end_time := 750 }]
        defaultPrefs 1 0,
      overlaps s.start_time s.end_time (0 * 1440 + defaultPrefs.lunch_start)
        (0 * 1440 + defaultPrefs.lunch_start + defaultPrefs.lunch_duration) := by
  decide

/-- **C3 counterexample**: with the two mutually overlapping events
09:00–11:00 and 09:30–10:00 on a Monday, the cursor is assigned the second
event's end 10:00 (moving backward from 11:00 — the source assigns
`current_time = event['end_time']`, not a `max`), and the finder emits the
slot 10:00–12:00, which overlaps the event 09:00–11:00. -/
theorem availability_event_overlap_cex :
    ∃ s ∈ find_available_slots
        [{ id := 1, start_time := 540, end_time := 660 },
         { id := 2, start_time := 570, end_time := 600 }] defaultPrefs 1 0,
      ∃ e ∈ ([{ id := 1, start_time := 540, end_time := 660 },
              { id := 2, start_time := 570, end_time := 600 }] : List CalEvent),
        overlaps s.start_time s.end_time e.start_time e.end_time := by
  decide

/-- **C1 counterexample**: called on "today" (day 0) at 09:00 with a
30-minute task, routine blocks built from the routine description
wake 07:00 / work 09:00–18:00 / sleep 22:00 for day 0, and a single
existing event filling 09:00–18:00 of day 0, `schedule_task_sequentially`
returns minute 2894 = day 2 at 00:14 — two calendar days after today, past
the claimed same-day-or-next-day ceiling (the fallback pushes past the
"after sleep" block that ends at day 1, 23:59). -/
theorem seq_placer_beyond_tomorrow_cex :
    schedule_task_sequentially 10
      [{ id := 1, start_time := 540, end_time := 1080 }]
      { wake := some 420, sleep := some 1320, work := some (540, 1080) }
      (create_routine_blocks
        { wake := some 420, sleep := some 1320, work := some (540, 1080) } 0)
      540 30 = some 2894 ∧ dateOf 2894 > 0 + 1 := by decide

/-- **C1** (amended): `schedule_task_sequentially` itself has no horizon
guard and can return dates 2+ days out (see the counterexample), but the
batch-placement loop of the hourly-schedule endpoint checks every returned
start and stops scheduling as soon as one lands past tomorrow, so every
placement it accepts has a calendar date at most 1 day after today. -/
theorem batch_placement_within_tomorrow (fuel : Nat) (desc : RoutineDesc)
    (blocks : List RoutineBlock) (today : Int) (events : List CalEvent)
    (durs : List Int) (cur : Int) :
    ∀ t ∈ batchSchedule fuel desc blocks today events durs cur,
      dateOf t ≤ today + 1 := by
  induction durs generalizing events cur with
  | nil => intro t ht; simp [batchSchedule] at ht
  | cons dur rest ih =>
    intro t ht
    unfold batchSchedule at ht
    split at ht
    · simp at ht
    · split at ht
      · simp at ht
      · rename_i hgt
        rcases List.mem_cons.mp ht with h | h
        · subst h; omega
        · exact ih _ _ _ h

/-- Witness for `batch_placement_within_tomorrow` at a concrete input. -/
theorem batch_placement_within_tomorrow_wit :
    (540 : Int) ∈ batchSchedule 5 {} [] 0 [] [30] 540 ∧ dateOf (540 : Int) ≤ 0 + 1 :=
  ⟨by decide, batch_placement_within_tomorrow 5 {} [] 0 [] [30] 540 540 (by decide)⟩

/-- **C4 counterexample**: an urgent research task offered a
tomorrow-morning peak slot scores 50, not the 58 = 30 + 20 + max(0, 10−2·1)
the claim's independent-sum formula gives: the urgency bonus sits in the
`elif` branch of the deep-work bonus and is skipped. -/
theorem scorer_combined_bonus_cex :
    scoreSlot
      { task_type := some "research", priority := "urgent",
        estimated_duration := some 30 }
      { peak_hours := [10, 11, 14, 15], low_hours := [13, 17, 18], best_days := [] }
      0 ⟨2040, 2100, 60, 1, "morning"⟩ = 50 ∧
    (50 : Int) ≠ 30 + 20 + max 0 (10 - 2 * 1) := by decide

/-- **C4** (amended): the score is the sum of three independent terms —
the peak/low term, a combined type/urgency term, and the weekday term —
where the deep-work-morning bonus (+20) and the urgency bonus
`max(0, 10 − 2*days_from_now)` are mutually exclusive: the urgency bonus
applies only when the task is not research-in-a-morning-slot. -/
theorem scorer_additive_terms (task : TaskLite) (patterns : EnergyPatterns)
    (today : Int) (slot : AvailableSlot) :
    scoreSlot task patterns today slot =
      (if hourOf slot.start_time ∈ patterns.peak_hours then 30
       else if hourOf slot.start_time ∈ patterns.low_hours then -20 else 0)
      + (if task.task_type = some "research" ∧ slot.type = "morning" then 20
         else if task.priority = "urgent" then
           max 0 (10 - (dateOf slot.start_time - today) * 2) else 0)
      + (if weekdayOf (dateOf slot.start_time) ∈ patterns.best_days then 10 else 0) := by
  simp only [scoreSlot]
  split_ifs <;> omega

/-- **C6**: for the routine description `Gym: 06:00`, the Routine Block
Builder produces exactly one gym block spanning 05:30–07:30 of the target
date, and the Sequential Task Placer asked to place a 30-minute task at
06:00 on that date places it at exactly 07:45 of that date — the block end
plus the 15-minute buffer, hence no earlier than 07:45. -/
theorem gym_block_placement (d : Int) :
    create_routine_blocks { gym := some 360 } d =
      [⟨d * 1440 + 330, d * 1440 + 450, "gym"⟩] ∧
    schedule_task_sequentially 2 [] { gym := some 360 }
      (create_routine_blocks { gym := some 360 } d) (d * 1440 + 360) 30 =
      some (d * 1440 + 465) ∧
    d * 1440 + 465 ≥ d * 1440 + (7 * 60 + 45) := by
  have hblocks : create_routine_blocks { gym := some 360 } d =
      [⟨d * 1440 + 330, d * 1440 + 450, "gym"⟩] := by
    simp only [create_routine_blocks, List.insertionSort, List.orderedInsert,
      List.nil_append, List.append_nil, List.singleton_append, List.cons_append,
      List.cons.injEq, RoutineBlock.mk.injEq, and_true, true_and]
    omega
  have step : ∀ (fuel : Nat) (t : Int) (blk : RoutineBlock),
      schedule_task_sequentially (fuel + 1) [] { gym := some 360 } [blk] t 30 =
        (if t + 30 > dateOf t * 1440 + 1080 then
           schedule_task_sequentially fuel [] { gym := some 360 } [blk]
             ((dateOf t + 1) * 1440 + 540) 30
         else match [blk].find? (fun b => decide (t < b.stop ∧ t + 30 > b.start)) with
           | some b => schedule_task_sequentially fuel [] { gym := some 360 } [blk]
               (b.stop + 15) 30
           | none => some t) := by
    intro fuel t blk
    rfl
  have hfind1 : List.find?
      (fun b => decide (d * 1440 + 360 < b.stop ∧ d * 1440 + 360 + 30 > b.start))
      [(⟨d * 1440 + 330, d * 1440 + 450, "gym"⟩ : RoutineBlock)] =
      some ⟨d * 1440 + 330, d * 1440 + 450, "gym"⟩ := by
    apply List.find?_cons_of_pos
    exact decide_eq_true ⟨(by omega : d * 1440 + 360 < d * 1440 + 450),
      (by omega : d * 1440 + 360 + 30 > d * 1440 + 330)⟩
  have hfind2 : List.find?
      (fun b => decide (d * 1440 + 450 + 15 < b.stop ∧ d * 1440 + 450 + 15 + 30 > b.start))
      [(⟨d * 1440 + 330, d * 1440 + 450, "gym"⟩ : RoutineBlock)] = none := by
    rw [List.find?_cons_of_neg, List.find?_nil]
    simp only [decide_eq_true_eq]
    intro h
    exact absurd h.1 (by omega : ¬ d * 1440 + 450 + 15 < d * 1440 + 450)
  refine ⟨hblocks, ?_, by omega⟩
  rw [hblocks]
  rw [show (2 : Nat) = 1 + 1 from rfl, step]
  rw [if_neg (by simp only [dateOf]; omega)]
  rw [hfind1]
  show schedule_task_sequentially (0 + 1) [] { gym := some 360 }
    [⟨d * 1440 + 330, d * 1440 + 450, "gym"⟩] (d * 1440 + 450 + 15) 30 =
    some (d * 1440 + 465)
  rw [step]
  rw [if_neg (by simp only [dateOf]; omega)]
  rw [hfind2]
  show (some (d * 1440 + 450 + 15) : Option Int) = some (d * 1440 + 465)
  congr 1
  omega

/-- **C5**: in the Dependency Rescheduler, a dependent event with
`dependency_type = sequential`, `auto_reschedule_enabled = true` and a
nonzero reschedule buffer `b` whose candidate time `newEnd + b` lies in the
8:00–20:00 search hours and conflicts with no other event is moved to
exactly the moved event's new end time plus `b` minutes (Scenario D). -/
theorem sequential_dependent_exact (st : RescheduleState) (depId : Int)
    (newStart newEnd : Int) (dep : CalEvent) (b : Int)
    (hfind : st.db.find? (fun e => e.id = depId) = some dep)
    (hauto : dep.auto_reschedule_enabled = true)
    (htype : dep.dependency_type = some "sequential")
    (hbuf : dep.reschedule_buffer_minutes = some b) (hb : b ≠ 0)
    (hhour : 8 ≤ hourOf (newEnd + b) ∧ hourOf (newEnd + b) ≤ 20)
    (hnoc : ∀ e ∈ st.db, e.id ≠ depId →
      ¬ overlaps e.start_time e.end_time (newEnd + b)
          (newEnd + b + (dep.end_time - dep.start_time))) :
    (processDependent newStart newEnd st depId).db =
      updateById st.db depId (fun e =>
        { e with start_time := newEnd + b, end_time := newEnd + b + (dep.end_time - dep.start_time), reschedule_count := e.reschedule_count + 1 }) ∧
    (processDependent newStart newEnd st depId).rescheduled =
      st.rescheduled ++ [depId] := by
  have hfilter : (st.db.filter (fun e =>
      decide (e.id ≠ depId ∧ e.start_time < newEnd + b + (dep.end_time - dep.start_time)
        ∧ e.end_time > newEnd + b))) = [] := by
    rw [List.filter_eq_nil_iff]
    intro e he
    simp only [decide_eq_true_eq]
    rintro ⟨hne, h1, h2⟩
    exact hnoc e he hne ⟨h1, h2⟩
  have hslot : find_conflict_free_slot st.db (newEnd + b)
      (dep.end_time - dep.start_time) depId = some (newEnd + b) := by
    rw [find_conflict_free_slot, show (336 : Nat) = 335 + 1 from rfl]
    rw [show findSlotGo st.db (dep.end_time - dep.start_time) depId (335 + 1) (newEnd + b) =
        (if (st.db.filter (fun e =>
            decide (e.id ≠ depId ∧ e.start_time < newEnd + b + (dep.end_time - dep.start_time)
              ∧ e.end_time > newEnd + b))).length = 0 ∧
            8 ≤ hourOf (newEnd + b) ∧ hourOf (newEnd + b) ≤ 20 then some (newEnd + b)
         else findSlotGo st.db (dep.end_time - dep.start_time) depId 335 (newEnd + b + 30))
      from rfl]
    rw [hfilter]
    rw [if_pos ⟨rfl, hhour⟩]
  simp only [processDependent, hfind, hauto]
  simp [candidateStart, depTypeOf, depBufferOf, htype, hbuf, hb, hslot]

/-- Witness for `sequential_dependent_exact`: Scenario D — the moved event
now sits 16:00–16:30, the dependent (30 min, buffer 15) is moved to exactly
16:30 + 15 min = 16:45. -/
theorem sequential_dependent_exact_wit :
    (processDependent 960 990
      ⟨[⟨1, 960, 990, [], none, true, none, 1⟩,
        ⟨2, 900, 930, [1], some "sequential", true, some 15, 0⟩], [], []⟩ 2).db =
      updateById [⟨1, 960, 990, [], none, true, none, 1⟩,
        ⟨2, 900, 930, [1], some "sequential", true, some 15, 0⟩] 2 (fun e =>
          { e with start_time := 990 + 15, end_time := 990 + 15 + (930 - 900), reschedule_count := e.reschedule_count + 1 }) ∧
    (processDependent 960 990
      ⟨[⟨1, 960, 990, [], none, true, none, 1⟩,
        ⟨2, 900, 930, [1], some "sequential", true, some 15, 0⟩], [], []⟩ 2).rescheduled =
      [] ++ [2] :=
  sequential_dependent_exact
    ⟨[⟨1, 960, 990, [], none, true, none, 1⟩,
      ⟨2, 900, 930, [1], some "sequential", true, some 15, 0⟩], [], []⟩
    2 960 990 ⟨2, 900, 930, [1], some "sequential", true, some 15, 0⟩ 15
    (by decide) (by decide) (by decide) (by decide) (by decide) (by decide) (by decide)

/-- Every pair stored in `energy_by_hour` maps an hour to that hour's
bucket mean. -/
theorem energyByHour_val (entries : List MoodEntry) (pr : Int × ℚ)
    (hpr : pr ∈ energyByHour entries) : pr.2 = hourAvgQ entries pr.1 := by
  rcases List.mem_filterMap.mp hpr with ⟨n, _, hf⟩
  split at hf
  · exact absurd hf (by simp)
  · obtain rfl := Option.some_inj.mp hf
    rfl

/-- **C9**: for every input list of mood samples (including the empty list,
which yields the fixed default profile), `peak_hours` and `low_hours` are
disjoint: peak membership forces a bucket mean ≥ 6 and low membership a
bucket mean < 5, and each hour has a single bucket mean. -/
theorem energy_peak_low_disjoint (entries : List MoodEntry) (h : Int)
    (hpeak : h ∈ (analyze_energy_patterns entries).peak_hours) :
    h ∉ (analyze_energy_patterns entries).low_hours := by
  intro hlow
  by_cases hE : entries.isEmpty
  · simp only [analyze_energy_patterns, hE, if_true, List.mem_cons,
      List.not_mem_nil, or_false] at hpeak hlow
    omega
  · simp only [analyze_energy_patterns, hE, Bool.false_eq_true, if_false,
      List.mem_map, List.mem_filter] at hpeak hlow
    rcases hpeak with ⟨pr, ⟨hprmem, hpr6⟩, hpr1⟩
    rcases hlow with ⟨qr, ⟨hqrmem, hqr5⟩, hqr1⟩
    have hprS : pr ∈ sortedHours entries := List.mem_of_mem_take hprmem
    have hqrS : qr ∈ sortedHours entries := List.mem_of_mem_drop hqrmem
    have hprE : pr ∈ energyByHour entries :=
      (List.mem_insertionSort _).mp hprS
    have hqrE : qr ∈ energyByHour entries :=
      (List.mem_insertionSort _).mp hqrS
    have hv1 : pr.2 = hourAvgQ entries pr.1 := energyByHour_val entries pr hprE
    have hv2 : qr.2 = hourAvgQ entries qr.1 := energyByHour_val entries qr hqrE
    rw [hv1, hpr1] at hpr6
    rw [hv2, hqr1] at hqr5
    have h6 : (6 : ℚ) ≤ hourAvgQ entries h := by simpa using hpr6
    have h5 : hourAvgQ entries h < 5 := by simpa using hqr5
    linarith

/-- Witness for `energy_peak_low_disjoint`: the empty sample list yields the
default profile, where hour 10 is a peak hour and therefore not a low hour. -/
theorem energy_peak_low_disjoint_wit :
    (10 : Int) ∈ (analyze_energy_patterns []).peak_hours ∧
    (10 : Int) ∉ (analyze_energy_patterns []).low_hours :=
  ⟨by decide, energy_peak_low_disjoint [] 10 (by decide)⟩

/-!
### Frame lemmas for the Dependency Rescheduler
-/

theorem sameFrame_refl (a : CalEvent) : SameFrame a a :=
  ⟨rfl, rfl, rfl, rfl, rfl, rfl⟩

theorem sameFrame_trans {a b c : CalEvent} (h1 : SameFrame a b)
    (h2 : SameFrame b c) : SameFrame a c := by
  obtain ⟨i1, d1, t1, a1, b1, u1⟩ := h1
  obtain ⟨i2, d2, t2, a2, b2, u2⟩ := h2
  exact ⟨i2.trans i1, d2.trans d1, t2.trans t1, a2.trans a1, b2.trans b1, u2.trans u1⟩

theorem forall2_sameFrame_refl (l : List CalEvent) : List.Forall₂ SameFrame l l := by
  induction l with
  | nil => constructor
  | cons e r ih => exact List.Forall₂.cons (sameFrame_refl e) ih

theorem forall2_sameFrame_trans {a b c : List CalEvent}
    (h1 : List.Forall₂ SameFrame a b) (h2 : List.Forall₂ SameFrame b c) :
    List.Forall₂ SameFrame a c := by
  induction h1 generalizing c with
  | nil => cases h2; constructor
  | cons hab _ ih =>
    cases h2 with
    | cons hbc h2t => exact List.Forall₂.cons (sameFrame_trans hab hbc) (ih h2t)

/-- `updateById` relates the store to its update positionally whenever the
update function keeps the frame of every event it touches. -/
theorem forall2_updateById (db : List CalEvent) (i : Int) (f : CalEvent → CalEvent)
    (hf : ∀ e ∈ db, e.id = i → SameFrame e (f e)) :
    List.Forall₂ SameFrame db (updateById db i f) := by
  induction db with
  | nil => constructor
  | cons e rest ih =>
    refine List.Forall₂.cons ?_ (ih (fun a ha hai => hf a (List.mem_cons_of_mem _ ha) hai))
    show SameFrame e (if e.id = i then f e else e)
    by_cases hei : e.id = i
    · rw [if_pos hei]
      exact hf e (List.mem_cons_self e rest) hei
    · rw [if_neg hei]
      exact sameFrame_refl e

/-- `updateById` never changes the stored ids (the update functions of the
source never write the id column). -/
theorem updateById_map_id (db : List CalEvent) (i : Int) (f : CalEvent → CalEvent)
    (hf : ∀ e, (f e).id = e.id) :
    (updateById db i f).map (fun e => e.id) = db.map (fun e => e.id) := by
  induction db with
  | nil => rfl
  | cons e rest ih =>
    show (if e.id = i then f e else e).id :: (updateById rest i f).map (fun e => e.id) =
      e.id :: rest.map (fun e => e.id)
    rw [ih]
    by_cases hei : e.id = i
    · rw [if_pos hei, hf e]
    · rw [if_neg hei]

/-- With unique ids, any member carrying the id found by `find?` is the
found event itself. -/
theorem mem_id_eq_find (db : List CalEvent) (hnd : (db.map (fun e => e.id)).Nodup)
    (x : Int) (dep : CalEvent) (hf : db.find? (fun e => e.id = x) = some dep)
    (e : CalEvent) (he : e ∈ db) (hex : e.id = x) : e = dep := by
  have hdep_mem : dep ∈ db := List.mem_of_find?_eq_some hf
  have hdep_id : dep.id = x := by simpa using List.find?_some hf
  exact List.inj_on_of_nodup_map hnd he hdep_mem (by rw [hex, hdep_id])

/-- One dependent-processing step never changes the stored ids. -/
theorem processDependent_map_id (newStart newEnd : Int) (st : RescheduleState)
    (depId : Int) :
    (processDependent newStart newEnd st depId).db.map (fun e => e.id) =
      st.db.map (fun e => e.id) := by
  unfold processDependent
  split
  · rfl
  · split
    · rfl
    · split
      · exact updateById_map_id st.db depId _ (fun e => rfl)
      · rfl

/-- One dependent-processing step keeps every event's frame and duration
(positionally), given unique ids. -/
theorem processDependent_frame (newStart newEnd : Int) (st : RescheduleState)
    (depId : Int) (hnd : (st.db.map (fun e => e.id)).Nodup) :
    List.Forall₂ SameFrame st.db (processDependent newStart newEnd st depId).db := by
  unfold processDependent
  split
  · exact forall2_sameFrame_refl _
  · rename_i dep hfind
    split
    · exact forall2_sameFrame_refl _
    · split
      · apply forall2_updateById
        intro e he hei
        have hedep : e = dep := mem_id_eq_find st.db hnd depId dep hfind e he hei
        subst hedep
        refine ⟨rfl, rfl, rfl, rfl, rfl, ?_⟩
        simp only
        omega
      · exact forall2_sameFrame_refl _

/-- The whole dependent cascade keeps every event's frame and duration
(positionally), given unique ids. -/
theorem fold_frame (newStart newEnd : Int) (deps : List Int) (st : RescheduleState)
    (hnd : (st.db.map (fun e => e.id)).Nodup) :
    List.Forall₂ SameFrame st.db
      ((deps.foldl (processDependent newStart newEnd) st).db) := by
  induction deps generalizing st with
  | nil => exact forall2_sameFrame_refl _
  | cons dp rest ih =>
    have h1 := processDependent_frame newStart newEnd st dp hnd
    have hnd' : ((processDependent newStart newEnd st dp).db.map (fun e => e.id)).Nodup := by
      rw [processDependent_map_id]; exact hnd
    exact forall2_sameFrame_trans h1 (ih (processDependent newStart newEnd st dp) hnd')

/-- **C10**: the Dependency Rescheduler never changes any event's duration
or any field besides the schedule position and the reschedule counter:
after a successful `smart_reschedule_dependent_events` the result store is
positionally related to the input store by `SameFrame` — same length, and
at every position the same id, dependencies, dependency type,
auto-reschedule flag and buffer, and the same `end_time − start_time`. -/
theorem reschedule_preserves_durations (db : List CalEvent) (movedId newStart : Int)
    (r : RescheduleResult) (hnd : (db.map (fun e => e.id)).Nodup)
    (hr : smart_reschedule_dependent_events db movedId newStart = some r) :
    List.Forall₂ SameFrame db r.db := by
  unfold smart_reschedule_dependent_events at hr
  split at hr
  · exact absurd hr (by simp)
  · rename_i moved hfind
    injection hr with hr
    subst hr
    have h1 : List.Forall₂ SameFrame db (updateById db movedId (fun e =>
        { e with start_time := newStart, end_time := newStart + (moved.end_time - moved.start_time), reschedule_count := e.reschedule_count + 1 })) := by
      apply forall2_updateById
      intro e he hei
      have hemoved : e = moved := mem_id_eq_find db hnd movedId moved hfind e he hei
      subst hemoved
      refine ⟨rfl, rfl, rfl, rfl, rfl, ?_⟩
      simp only
      omega
    have hids := updateById_map_id db movedId (fun e =>
      { e with start_time := newStart, end_time := newStart + (moved.end_time - moved.start_time), reschedule_count := e.reschedule_count + 1 }) (fun e => rfl)
    have hnd1 : ((updateById db movedId (fun e =>
        { e with start_time := newStart, end_time := newStart + (moved.end_time - moved.start_time), reschedule_count := e.reschedule_count + 1 })).map
          (fun e => e.id)).Nodup := by
      rw [hids]; exact hnd
    exact forall2_sameFrame_trans h1
      (fold_frame newStart (newStart + (moved.end_time - moved.start_time))
        (dependentIds db movedId)
        ⟨updateById db movedId (fun e =>
          { e with start_time := newStart, end_time := newStart + (moved.end_time - moved.start_time), reschedule_count := e.reschedule_count + 1 }),
         [], []⟩ hnd1)

/-- Witness for `reschedule_preserves_durations`: the Scenario D store. -/
theorem reschedule_preserves_durations_wit :
    List.Forall₂ SameFrame
      [⟨1, 840, 870, [], none, true, none, 0⟩,
       ⟨2, 900, 930, [1], some "sequential", true, some 15, 0⟩]
      [⟨1, 960, 990, [], none, true, none, 1⟩,
       ⟨2, 1005, 1035, [1], some "sequential", true, some 15, 1⟩] :=
  reschedule_preserves_durations
    [⟨1, 840, 870, [], none, true, none, 0⟩,
     ⟨2, 900, 930, [1], some "sequential", true, some 15, 0⟩] 1 960
    ⟨[⟨1, 960, 990, [], none, true, none, 1⟩,
      ⟨2, 1005, 1035, [1], some "sequential", true, some 15, 1⟩], [2], [], 1⟩
    (by decide) (by decide)

/-!
### Conflict-reporting lemmas for the Dependency Rescheduler
-/

/-- A dependent-processing step never removes entries from `conflicts`. -/
theorem processDependent_conflicts_mono (newStart newEnd : Int)
    (st : RescheduleState) (depId : Int) (x : Int) (hx : x ∈ st.conflicts) :
    x ∈ (processDependent newStart newEnd st depId).conflicts := by
  unfold processDependent
  split
  · exact hx
  · split
    · exact List.mem_append_left _ hx
    · split
      · exact hx
      · exact List.mem_append_left _ hx

/-- The whole cascade never removes entries from `conflicts`. -/
theorem fold_conflicts_mono (newStart newEnd : Int) (deps : List Int)
    (st : RescheduleState) (x : Int) (hx : x ∈ st.conflicts) :
    x ∈ (deps.foldl (processDependent newStart newEnd) st).conflicts := by
  induction deps generalizing st with
  | nil => exact hx
  | cons dp rest ih => exact ih _ (processDependent_conflicts_mono _ _ _ _ _ hx)

/-- An update addressed to a different id leaves `dep` untouched. -/
theorem keeps_updateById_ne (dep : CalEvent) (db : List CalEvent) (i : Int)
    (f : CalEvent → CalEvent) (hf : ∀ e, (f e).id = e.id) (hne : i ≠ dep.id)
    (h : KeepsDep dep db) : KeepsDep dep (updateById db i f) := by
  intro e' he' hid
  rcases List.mem_map.mp he' with ⟨e, he, rfl⟩
  by_cases hei : e.id = i
  · rw [if_pos hei] at hid ⊢
    rw [hf e] at hid
    exact absurd (hei.symm.trans hid) hne
  · rw [if_neg hei] at hid ⊢
    exact h e he hid

/-- A dependent with auto-reschedule off is never moved by any step of the
cascade (its own turn skips it, other turns address other ids). -/
theorem processDependent_keeps (newStart newEnd : Int) (st : RescheduleState)
    (depId : Int) (dep : CalEvent) (hauto : dep.auto_reschedule_enabled = false)
    (h : KeepsDep dep st.db) :
    KeepsDep dep (processDependent newStart newEnd st depId).db := by
  unfold processDependent
  split
  · exact h
  · rename_i d hfind
    split
    · exact h
    · rename_i hd_auto
      split
      · by_cases hdep : depId = dep.id
        · exfalso
          have hd_mem := List.mem_of_find?_eq_some hfind
          have hd_id : d.id = depId := by simpa using List.find?_some hfind
          have hd_eq : d = dep := h d hd_mem (hd_id.trans hdep)
          rw [hd_eq, hauto] at hd_auto
          exact hd_auto (by simp)
        · exact keeps_updateById_ne dep st.db depId _ (fun e => rfl) hdep h
      · exact h

theorem fold_keeps (newStart newEnd : Int) (deps : List Int)
    (st : RescheduleState) (dep : CalEvent)
    (hauto : dep.auto_reschedule_enabled = false) (h : KeepsDep dep st.db) :
    KeepsDep dep ((deps.foldl (processDependent newStart newEnd) st).db) := by
  induction deps generalizing st with
  | nil => exact h
  | cons dp rest ih => exact ih _ (processDependent_keeps _ _ _ _ _ hauto h)

/-- When the turn of a dependent with auto-reschedule off comes, its id is
appended to `conflicts`, and it stays there. -/
theorem fold_conflict_mem (newStart newEnd : Int) (deps : List Int)
    (st : RescheduleState) (dep : CalEvent)
    (hauto : dep.auto_reschedule_enabled = false) (hk : KeepsDep dep st.db)
    (hpres : dep.id ∈ st.db.map (fun e => e.id)) (hin : dep.id ∈ deps) :
    dep.id ∈ ((deps.foldl (processDependent newStart newEnd) st).conflicts) := by
  induction deps generalizing st with
  | nil => cases hin
  | cons dp rest ih =>
    by_cases hdp : dp = dep.id
    · subst hdp
      have hstep : dep.id ∈ (processDependent newStart newEnd st dep.id).conflicts := by
        unfold processDependent
        split
        · rename_i hnone
          exfalso
          rcases List.mem_map.mp hpres with ⟨e, he, hei⟩
          have hno := List.find?_eq_none.mp hnone e he
          simp [hei] at hno
        · rename_i d hfind
          split
          · exact List.mem_append_right _ (List.mem_singleton.mpr rfl)
          · rename_i hd_auto
            exfalso
            have hd_mem := List.mem_of_find?_eq_some hfind
            have hd_id : d.id = dep.id := by simpa using List.find?_some hfind
            have hd_eq : d = dep := hk d hd_mem hd_id
            rw [hd_eq, hauto] at hd_auto
            exact hd_auto (by simp)
      exact fold_conflicts_mono newStart newEnd rest _ _ hstep
    · rcases List.mem_cons.mp hin with h1 | h1
      · exact absurd h1.symm hdp
      · have hk' := processDependent_keeps newStart newEnd st dp dep hauto hk
        have hpres' : dep.id ∈ (processDependent newStart newEnd st dp).db.map
            (fun e => e.id) := by
          rw [processDependent_map_id]; exact hpres
        exact ih _ hk' hpres' h1

/-- Every processed dependent lands in exactly one of `rescheduled_events`
or `conflicts`. -/
theorem processDependent_counts (newStart newEnd : Int) (st : RescheduleState)
    (depId : Int) (hpres : depId ∈ st.db.map (fun e => e.id)) :
    (processDependent newStart newEnd st depId).rescheduled.length +
      (processDependent newStart newEnd st depId).conflicts.length =
      st.rescheduled.length + st.conflicts.length + 1 := by
  unfold processDependent
  split
  · rename_i hnone
    exfalso
    rcases List.mem_map.mp hpres with ⟨e, he, hei⟩
    have hno := List.find?_eq_none.mp hnone e he
    simp [hei] at hno
  · split
    · simp only [List.length_append, List.length_cons, List.length_nil]
      omega
    · split
      · simp only [List.length_append, List.length_cons, List.length_nil]
        omega
      · simp only [List.length_append, List.length_cons, List.length_nil]
        omega

/-- The cascade processes every dependent: one outcome entry per dependent. -/
theorem fold_counts (newStart newEnd : Int) (deps : List Int)
    (st : RescheduleState)
    (hpres : ∀ dp ∈ deps, dp ∈ st.db.map (fun e => e.id)) :
    ((deps.foldl (processDependent newStart newEnd) st).rescheduled.length +
      (deps.foldl (processDependent newStart newEnd) st).conflicts.length) =
      st.rescheduled.length + st.conflicts.length + deps.length := by
  induction deps generalizing st with
  | nil => simp
  | cons dp rest ih =>
    have h1 := processDependent_counts newStart newEnd st dp
      (hpres dp (List.mem_cons_self dp rest))
    have hpres' : ∀ q ∈ rest, q ∈ (processDependent newStart newEnd st dp).db.map
        (fun e => e.id) := by
      intro q hq
      rw [processDependent_map_id]
      exact hpres q (List.mem_cons_of_mem _ hq)
    have h2 := ih (processDependent newStart newEnd st dp) hpres'
    simp only [List.foldl_cons, List.length_cons]
    omega

/-- **C8**: (a) at the `smart_reschedule_dependent_events` level, a
dependent event with `auto_reschedule_enabled = false` (distinct from the
moved event, unique ids) keeps its `start_time` and `end_time` — it is
still in the result store completely unchanged — its id is reported in the
result's `conflicts`, and the cascade does not abort: every dependent
contributes exactly one entry to `rescheduled_events` or `conflicts`, so
their counts sum to `total_affected`; (b) the same conflict-reporting
applies to a dependent for which the 7-day conflict-free search finds no
slot: its step leaves the store unchanged and appends it to `conflicts`. -/
theorem reschedule_conflict_reporting :
    (∀ (db : List CalEvent) (movedId newStart : Int) (r : RescheduleResult)
        (dep : CalEvent),
      (db.map (fun e => e.id)).Nodup →
      smart_reschedule_dependent_events db movedId newStart = some r →
      dep ∈ db → movedId ∈ dep.depends_on → dep.id ≠ movedId →
      dep.auto_reschedule_enabled = false →
      ((∀ e ∈ r.db, e.id = dep.id → e = dep) ∧ dep.id ∈ r.conflicts ∧
        r.rescheduled.length + r.conflicts.length = r.total_affected)) ∧
    (∀ (newStart newEnd : Int) (st : RescheduleState) (depId : Int)
        (dep : CalEvent),
      st.db.find? (fun e => e.id = depId) = some dep →
      dep.auto_reschedule_enabled = true →
      find_conflict_free_slot st.db (candidateStart newStart newEnd dep)
        (dep.end_time - dep.start_time) depId = none →
      ((processDependent newStart newEnd st depId).db = st.db ∧
        (processDependent newStart newEnd st depId).conflicts =
          st.conflicts ++ [depId])) := by
  constructor
  · intro db movedId newStart r dep hnd hr hdep hdepends hne hauto
    unfold smart_reschedule_dependent_events at hr
    split at hr
    · exact absurd hr (by simp)
    · rename_i moved hfind
      injection hr with hr
      subst hr
      have hids := updateById_map_id db movedId (fun e =>
        { e with start_time := newStart, end_time := newStart + (moved.end_time - moved.start_time), reschedule_count := e.reschedule_count + 1 }) (fun e => rfl)
      have hk0 : KeepsDep dep db := fun e he hei =>
        List.inj_on_of_nodup_map hnd he hdep hei
      have hk1 : KeepsDep dep (updateById db movedId (fun e =>
          { e with start_time := newStart, end_time := newStart + (moved.end_time - moved.start_time), reschedule_count := e.reschedule_count + 1 })) :=
        keeps_updateById_ne dep db movedId _ (fun e => rfl)
          (fun hmi => hne hmi.symm) hk0
      have hpres1 : dep.id ∈ (updateById db movedId (fun e =>
          { e with start_time := newStart, end_time := newStart + (moved.end_time - moved.start_time), reschedule_count := e.reschedule_count + 1 })).map
            (fun e => e.id) := by
        rw [hids]
        exact List.mem_map_of_mem _ hdep
      have hin : dep.id ∈ dependentIds db movedId := by
        unfold dependentIds
        exact List.mem_map_of_mem _ (List.mem_filter.mpr ⟨hdep, by simpa using hdepends⟩)
      refine ⟨?_, ?_, ?_⟩
      · exact fold_keeps newStart (newStart + (moved.end_time - moved.start_time))
          (dependentIds db movedId) _ dep hauto hk1
      · exact fold_conflict_mem newStart (newStart + (moved.end_time - moved.start_time))
          (dependentIds db movedId) _ dep hauto hk1 hpres1 hin
      · have hpresAll : ∀ dp ∈ dependentIds db movedId,
            dp ∈ (updateById db movedId (fun e =>
              { e with start_time := newStart, end_time := newStart + (moved.end_time - moved.start_time), reschedule_count := e.reschedule_count + 1 })).map
                (fun e => e.id) := by
          intro dp hdp
          rw [hids]
          unfold dependentIds at hdp
          rcases List.mem_map.mp hdp with ⟨e, he, rfl⟩
          exact List.mem_map_of_mem _ (List.mem_filter.mp he).1
        have hc := fold_counts newStart (newStart + (moved.end_time - moved.start_time))
          (dependentIds db movedId)
          ⟨updateById db movedId (fun e =>
            { e with start_time := newStart, end_time := newStart + (moved.end_time - moved.start_time), reschedule_count := e.reschedule_count + 1 }),
           [], []⟩ hpresAll
        simpa using hc
  · intro newStart newEnd st depId dep hfind hauto hnone
    simp only [processDependent, hfind, hauto, hnone]
    simp

/-- Witness for `reschedule_conflict_reporting` (part a at a concrete
input): the dependent with auto-reschedule off stays at 15:00–15:30, is
reported in `conflicts`, and the outcome counts cover the one dependent. -/
theorem reschedule_conflict_reporting_wit :
    ((∀ e ∈ ([⟨1, 960, 990, [], none, true, none, 1⟩,
        ⟨2, 900, 930, [1], some "sequential", false, some 15, 0⟩] : List CalEvent),
      e.id = (2 : Int) → e = ⟨2, 900, 930, [1], some "sequential", false, some 15, 0⟩) ∧
      (2 : Int) ∈ [(2 : Int)] ∧ ([] : List Int).length + [(2 : Int)].length = 1) :=
  reschedule_conflict_reporting.1
    [⟨1, 840, 870, [], none, true, none, 0⟩,
     ⟨2, 900, 930, [1], some "sequential", false, some 15, 0⟩] 1 960
    ⟨[⟨1, 960, 990, [], none, true, none, 1⟩,
      ⟨2, 900, 930, [1], some "sequential", false, some 15, 0⟩], [], [2], 1⟩
    ⟨2, 900, 930, [1], some "sequential", false, some 15, 0⟩
    (by decide) (by decide) (by decide) (by decide) (by decide) (by decide)

/-!
### Emission lemmas for the Availability Finder
-/

/-- A slot added by `lunchSplit` is the pre-lunch piece `[cur, lsA)`, and
the split only fires when the gap straddles the lunch start. -/
theorem lunchSplit_mem (p : Prefs) (d lsA leA cur eStart : Int)
    (acc : List AvailableSlot) (s : AvailableSlot)
    (hs : s ∈ (lunchSplit p d lsA leA cur eStart acc).2) :
    s ∈ acc ∨ (s.start_time = cur ∧ s.end_time = lsA ∧ s.date = d ∧
      cur < lsA ∧ lsA < eStart) := by
  unfold lunchSplit at hs
  split at hs
  · rename_i hcond
    dsimp only at hs
    split at hs
    · rcases List.mem_append.mp hs with h | h
      · exact Or.inl h
      · rcases List.mem_singleton.mp h with rfl
        exact Or.inr ⟨rfl, rfl, rfl, hcond.1, hcond.2⟩
    · exact Or.inl hs
  · exact Or.inl hs

/-- The cursor after `lunchSplit` is either untouched or jumped to the lunch
end (only when the cursor was before the lunch start). -/
theorem lunchSplit_fst (p : Prefs) (d lsA leA cur eStart : Int)
    (acc : List AvailableSlot) :
    (lunchSplit p d lsA leA cur eStart acc).1 = cur ∨
    ((lunchSplit p d lsA leA cur eStart acc).1 = leA ∧ cur < lsA) := by
  unfold lunchSplit
  split
  · rename_i hcond
    exact Or.inr ⟨rfl, hcond.1⟩
  · exact Or.inl rfl

/-- A slot added by `gapEmit` runs from the (possibly lunch-jumped) cursor
to the event start, and the emission condition holds. -/
theorem gapEmit_mem (p : Prefs) (d lsA leA cur1 eStart : Int)
    (acc1 : List AvailableSlot) (s : AvailableSlot)
    (hs : s ∈ gapEmit p d lsA leA cur1 eStart acc1) :
    s ∈ acc1 ∨ (s.start_time = cur1 ∧ s.end_time = eStart ∧ s.date = d ∧
      (cur1 ≥ leA ∨ eStart ≤ lsA)) := by
  unfold gapEmit at hs
  split at hs
  · rename_i hcond
    split at hs
    · rcases List.mem_append.mp hs with h | h
      · exact Or.inl h
      · rcases List.mem_singleton.mp h with rfl
        exact Or.inr ⟨rfl, rfl, rfl, hcond⟩
    · exact Or.inl hs
  · exact Or.inl hs

/-- A slot added by `trailLunch` is the pre-lunch piece `[cur, lsA)`. -/
theorem trailLunch_mem (p : Prefs) (d lsA leA cur : Int)
    (acc : List AvailableSlot) (s : AvailableSlot)
    (hs : s ∈ (trailLunch p d lsA leA cur acc).2) :
    s ∈ acc ∨ (s.start_time = cur ∧ s.end_time = lsA ∧ s.date = d ∧ cur < lsA) := by
  unfold trailLunch at hs
  split at hs
  · rename_i hcond
    dsimp only at hs
    split at hs
    · rcases List.mem_append.mp hs with h | h
      · exact Or.inl h
      · rcases List.mem_singleton.mp h with rfl
        exact Or.inr ⟨rfl, rfl, rfl, hcond⟩
    · exact Or.inl hs
  · exact Or.inl hs

/-- The cursor after `trailLunch`: untouched when at or past the lunch
start, jumped to the lunch end otherwise. -/
theorem trailLunch_fst (p : Prefs) (d lsA leA cur : Int)
    (acc : List AvailableSlot) :
    ((trailLunch p d lsA leA cur acc).1 = cur ∧ ¬ cur < lsA) ∨
    ((trailLunch p d lsA leA cur acc).1 = leA ∧ cur < lsA) := by
  unfold trailLunch
  split
  · rename_i hcond
    exact Or.inr ⟨rfl, hcond⟩
  · rename_i hcond
    exact Or.inl ⟨rfl, hcond⟩

/-- A slot added by `trailEmit` runs from the cursor to work end. -/
theorem trailEmit_mem (p : Prefs) (d weA cur1 : Int)
    (acc1 : List AvailableSlot) (s : AvailableSlot)
    (hs : s ∈ trailEmit p d weA cur1 acc1) :
    s ∈ acc1 ∨ (s.start_time = cur1 ∧ s.end_time = weA ∧ s.date = d ∧ cur1 < weA) := by
  unfold trailEmit at hs
  split at hs
  · rename_i hcond
    split at hs
    · rcases List.mem_append.mp hs with h | h
      · exact Or.inl h
      · rcases List.mem_singleton.mp h with rfl
        exact Or.inr ⟨rfl, rfl, rfl, hcond⟩
    · exact Or.inl hs
  · exact Or.inl hs

/-- The cursor walk of the Availability Finder, on a day list of
pairwise-disjoint (or identical), strictly positive-length, day-contained
events sorted by start: every emitted slot stays inside the day, starts at
or after the incoming cursor or after some processed event's end, and
overlaps no event of the list; the final cursor dominates every event end. -/
theorem walkEvents_no_overlap (p : Prefs) (d lsA leA : Int)
    (hlsA : d * 1440 ≤ lsA) (hlsA2 : lsA ≤ (d + 1) * 1440) (hlsle : lsA ≤ leA) :
    ∀ (l : List CalEvent) (cur : Int) (acc : List AvailableSlot),
    d * 1440 ≤ cur →
    (∀ e ∈ l, d * 1440 ≤ e.start_time ∧ e.start_time < e.end_time ∧
      e.end_time ≤ (d + 1) * 1440) →
    List.Pairwise (fun a b => a.start_time ≤ b.start_time ∧
      (a.end_time ≤ b.start_time ∨
        (a.start_time = b.start_time ∧ a.end_time = b.end_time))) l →
    (∀ s ∈ (walkEvents p d lsA leA cur l acc).2,
      s ∈ acc ∨
      (d * 1440 ≤ s.start_time ∧ s.end_time ≤ (d + 1) * 1440 ∧
       (cur ≤ s.start_time ∨ ∃ e ∈ l, e.end_time ≤ s.start_time) ∧
       (∀ e ∈ l, ¬ overlaps s.start_time s.end_time e.start_time e.end_time))) ∧
    (∀ e ∈ l, e.end_time ≤ (walkEvents p d lsA leA cur l acc).1) ∧
    d * 1440 ≤ (walkEvents p d lsA leA cur l acc).1 := by
  intro l
  induction l with
  | nil =>
    intro cur acc hcur _ _
    exact ⟨fun s hs => Or.inl hs, fun e he => absurd he (List.not_mem_nil e), hcur⟩
  | cons e rest ih =>
    intro cur acc hcur hl hpw
    have he_facts := hl e (List.mem_cons_self e rest)
    have hl' : ∀ g ∈ rest, d * 1440 ≤ g.start_time ∧ g.start_time < g.end_time ∧
        g.end_time ≤ (d + 1) * 1440 := fun g hg => hl g (List.mem_cons_of_mem _ hg)
    have hrel := (List.pairwise_cons.mp hpw).1
    have hpw' := (List.pairwise_cons.mp hpw).2
    have hcur' : d * 1440 ≤ e.end_time := le_trans he_facts.1 (le_of_lt he_facts.2.1)
    have hwalk : walkEvents p d lsA leA cur (e :: rest) acc =
        walkEvents p d lsA leA e.end_time rest
          (if cur < e.start_time then (gapSlots p d lsA leA cur e.start_time acc).2
           else acc) := rfl
    have IH := ih e.end_time
      (if cur < e.start_time then (gapSlots p d lsA leA cur e.start_time acc).2 else acc)
      hcur' hl' hpw'
    refine ⟨?_, ?_, ?_⟩
    · intro s hs
      rw [hwalk] at hs
      rcases IH.1 s hs with hsacc | ⟨hsd, hse, hsdisj, hsno⟩
      · by_cases hgap : cur < e.start_time
        · rw [if_pos hgap] at hsacc
          rcases gapEmit_mem p d lsA leA _ e.start_time _ s hsacc with h1 | ⟨hst, hend, _, _⟩
          · rcases lunchSplit_mem p d lsA leA cur e.start_time acc s h1 with
              h2 | ⟨hst, hend, _, hclt, hlteS⟩
            · exact Or.inl h2
            · right
              refine ⟨by omega, by omega, Or.inl (by omega), ?_⟩
              intro g hg hov
              obtain ⟨hov1, hov2⟩ := hov
              rcases List.mem_cons.mp hg with rfl | hg'
              · omega
              · have hgrel := hrel g hg'
                omega
          · rcases lunchSplit_fst p d lsA leA cur e.start_time acc with hc1 | ⟨hc1, hclt⟩
            · right
              refine ⟨by omega, by omega, Or.inl (by omega), ?_⟩
              intro g hg hov
              obtain ⟨hov1, hov2⟩ := hov
              rcases List.mem_cons.mp hg with rfl | hg'
              · omega
              · have hgrel := hrel g hg'
                omega
            · right
              refine ⟨by omega, by omega, Or.inl (by omega), ?_⟩
              intro g hg hov
              obtain ⟨hov1, hov2⟩ := hov
              rcases List.mem_cons.mp hg with rfl | hg'
              · omega
              · have hgrel := hrel g hg'
                omega
        · rw [if_neg hgap] at hsacc
          exact Or.inl hsacc
      · right
        refine ⟨hsd, hse, ?_, ?_⟩
        · rcases hsdisj with h | ⟨g, hg, hge⟩
          · exact Or.inr ⟨e, List.mem_cons_self e rest, h⟩
          · exact Or.inr ⟨g, List.mem_cons_of_mem _ hg, hge⟩
        · intro g hg hov
          obtain ⟨hov1, hov2⟩ := hov
          rcases List.mem_cons.mp hg with rfl | hg'
          · rcases hsdisj with h | ⟨g2, hg2, hge2⟩
            · omega
            · have hgrel := hrel g2 hg2
              have hg2f := hl' g2 hg2
              rcases hgrel.2 with h2 | ⟨h2a, h2b⟩
              · omega
              · omega
          · exact hsno g hg' ⟨hov1, hov2⟩
    · intro g hg
      rw [hwalk]
      rcases List.mem_cons.mp hg with rfl | hg'
      · cases rest with
        | nil => exact le_of_eq rfl
        | cons g2 rest2 =>
          have h2 := IH.2.1 g2 (List.mem_cons_self g2 rest2)
          have hgrel := hrel g2 (List.mem_cons_self g2 rest2)
          have hg2f := hl' g2 (List.mem_cons_self g2 rest2)
          rcases hgrel.2 with h3 | ⟨h3a, h3b⟩
          · omega
          · omega
      · exact IH.2.1 g hg'
    · rw [hwalk]
      exact IH.2.2

/-- One day of the Availability Finder on pairwise-disjoint, day-contained
events: every emitted slot stays inside the day and overlaps no event of
that day. -/
theorem daySlots_no_overlap (events : List CalEvent) (p : Prefs) (d : Int)
    (hp1 : 0 ≤ p.work_start) (hp2 : p.work_end ≤ 1440)
    (hp3 : 0 ≤ p.lunch_start) (hp4 : p.lunch_start ≤ 1440)
    (hp5 : 0 ≤ p.lunch_duration)
    (hev : ∀ e ∈ events, e.start_time < e.end_time ∧
      e.end_time ≤ (dateOf e.start_time + 1) * 1440)
    (hpw : ∀ e1 ∈ events, ∀ e2 ∈ events,
      dateOf e1.start_time = dateOf e2.start_time →
      e1.end_time ≤ e2.start_time ∨ e2.end_time ≤ e1.start_time ∨
      (e1.start_time = e2.start_time ∧ e1.end_time = e2.end_time)) :
    ∀ s ∈ daySlots events p d,
      d * 1440 ≤ s.start_time ∧ s.end_time ≤ (d + 1) * 1440 ∧
      ∀ e ∈ events, dateOf e.start_time = d →
        ¬ overlaps s.start_time s.end_time e.start_time e.end_time := by
  intro s hs
  simp only [daySlots] at hs
  have hmemday : ∀ e : CalEvent, e ∈ (List.insertionSort
      (fun a b => a.start_time ≤ b.start_time)
      (events.filter (fun e => dateOf e.start_time = d))) ↔
      (e ∈ events ∧ dateOf e.start_time = d) := by
    intro e
    rw [List.mem_insertionSort, List.mem_filter]
    simp
  have hlL : ∀ e ∈ (List.insertionSort (fun a b => a.start_time ≤ b.start_time)
      (events.filter (fun e => dateOf e.start_time = d))),
      d * 1440 ≤ e.start_time ∧ e.start_time < e.end_time ∧
        e.end_time ≤ (d + 1) * 1440 := by
    intro e he
    have hef := (hmemday e).mp he
    have hee := hev e hef.1
    have hed := hef.2
    simp only [dateOf] at hed hee
    omega
  haveI hTot : IsTotal CalEvent (fun a b => a.start_time ≤ b.start_time) :=
    ⟨fun a b => le_total _ _⟩
  haveI hTrans : IsTrans CalEvent (fun a b => a.start_time ≤ b.start_time) :=
    ⟨fun a b c hab hbc => le_trans hab hbc⟩
  have hsorted := List.sorted_insertionSort
    (fun a b : CalEvent => a.start_time ≤ b.start_time)
    (events.filter (fun e => dateOf e.start_time = d))
  have hpwL : List.Pairwise (fun a b : CalEvent => a.start_time ≤ b.start_time ∧
      (a.end_time ≤ b.start_time ∨
        (a.start_time = b.start_time ∧ a.end_time = b.end_time)))
      (List.insertionSort (fun a b => a.start_time ≤ b.start_time)
        (events.filter (fun e => dateOf e.start_time = d))) := by
    refine List.Pairwise.imp_of_mem ?_ hsorted
    intro a b ha hb hle
    have haf := (hmemday a).mp ha
    have hbf := (hmemday b).mp hb
    have hbev := hev b hbf.1
    have hd := hpw a haf.1 b hbf.1 (haf.2.trans hbf.2.symm)
    refine ⟨hle, ?_⟩
    rcases hd with h | h | h
    · exact Or.inl h
    · exfalso; omega
    · exact Or.inr h
  have hW := walkEvents_no_overlap p d (d * 1440 + p.lunch_start)
    (d * 1440 + p.lunch_start + p.lunch_duration) (by omega) (by omega) (by omega)
    (List.insertionSort (fun a b => a.start_time ≤ b.start_time)
      (events.filter (fun e => dateOf e.start_time = d)))
    (d * 1440 + p.work_start) [] (by omega) hlL hpwL
  have hfromwalk : ∀ t ∈ (walkEvents p d (d * 1440 + p.lunch_start)
      (d * 1440 + p.lunch_start + p.lunch_duration) (d * 1440 + p.work_start)
      (List.insertionSort (fun a b => a.start_time ≤ b.start_time)
        (events.filter (fun e => dateOf e.start_time = d))) []).2,
      d * 1440 ≤ t.start_time ∧ t.end_time ≤ (d + 1) * 1440 ∧
      ∀ e ∈ events, dateOf e.start_time = d →
        ¬ overlaps t.start_time t.end_time e.start_time e.end_time := by
    intro t ht
    rcases hW.1 t ht with habs | ⟨hd1, hd2, _, hno⟩
    · exact absurd habs (List.not_mem_nil t)
    · exact ⟨hd1, hd2, fun e he hed => hno e ((hmemday e).mpr ⟨he, hed⟩)⟩
  have hWcur := hW.2.2
  unfold trailingSlots at hs
  split at hs
  · rcases trailEmit_mem p d (d * 1440 + p.work_end)
        (trailLunch p d (d * 1440 + p.lunch_start)
          (d * 1440 + p.lunch_start + p.lunch_duration)
          (walkEvents p d (d * 1440 + p.lunch_start)
            (d * 1440 + p.lunch_start + p.lunch_duration) (d * 1440 + p.work_start)
            (List.insertionSort (fun a b => a.start_time ≤ b.start_time)
              (events.filter (fun e => dateOf e.start_time = d))) []).1
          (walkEvents p d (d * 1440 + p.lunch_start)
            (d * 1440 + p.lunch_start + p.lunch_duration) (d * 1440 + p.work_start)
            (List.insertionSort (fun a b => a.start_time ≤ b.start_time)
              (events.filter (fun e => dateOf e.start_time = d))) []).2).1
        (trailLunch p d (d * 1440 + p.lunch_start)
          (d * 1440 + p.lunch_start + p.lunch_duration)
          (walkEvents p d (d * 1440 + p.lunch_start)
            (d * 1440 + p.lunch_start + p.lunch_duration) (d * 1440 + p.work_start)
            (List.insertionSort (fun a b => a.start_time ≤ b.start_time)
              (events.filter (fun e => dateOf e.start_time = d))) []).1
          (walkEvents p d (d * 1440 + p.lunch_start)
            (d * 1440 + p.lunch_start + p.lunch_duration) (d * 1440 + p.work_start)
            (List.insertionSort (fun a b => a.start_time ≤ b.start_time)
              (events.filter (fun e => dateOf e.start_time = d))) []).2).2
        s hs with h1 | ⟨hst, hend, _, _⟩
    · rcases trailLunch_mem p d (d * 1440 + p.lunch_start)
          (d * 1440 + p.lunch_start + p.lunch_duration)
          (walkEvents p d (d * 1440 + p.lunch_start)
            (d * 1440 + p.lunch_start + p.lunch_duration) (d * 1440 + p.work_start)
            (List.insertionSort (fun a b => a.start_time ≤ b.start_time)
              (events.filter (fun e => dateOf e.start_time = d))) []).1
          (walkEvents p d (d * 1440 + p.lunch_start)
            (d * 1440 + p.lunch_start + p.lunch_duration) (d * 1440 + p.work_start)
            (List.insertionSort (fun a b => a.start_time ≤ b.start_time)
              (events.filter (fun e => dateOf e.start_time = d))) []).2
          s h1 with h2 | ⟨hst, hend, _, hclt⟩
      · exact hfromwalk s h2
      · refine ⟨by omega, by omega, ?_⟩
        intro e he hed
        have hEnd := hW.2.1 e ((hmemday e).mpr ⟨he, hed⟩)
        intro hov
        obtain ⟨hov1, hov2⟩ := hov
        omega
    · rcases trailLunch_fst p d (d * 1440 + p.lunch_start)
          (d * 1440 + p.lunch_start + p.lunch_duration)
          (walkEvents p d (d * 1440 + p.lunch_start)
            (d * 1440 + p.lunch_start + p.lunch_duration) (d * 1440 + p.work_start)
            (List.insertionSort (fun a b => a.start_time ≤ b.start_time)
              (events.filter (fun e => dateOf e.start_time = d))) []).1
          (walkEvents p d (d * 1440 + p.lunch_start)
            (d * 1440 + p.lunch_start + p.lunch_duration) (d * 1440 + p.work_start)
            (List.insertionSort (fun a b => a.start_time ≤ b.start_time)
              (events.filter (fun e => dateOf e.start_time = d))) []).2
          with ⟨hc, hnlt⟩ | ⟨hc, hlt⟩
      · refine ⟨by omega, by omega, ?_⟩
        intro e he hed
        have hEnd := hW.2.1 e ((hmemday e).mpr ⟨he, hed⟩)
        intro hov
        obtain ⟨hov1, hov2⟩ := hov
        omega
      · refine ⟨by omega, by omega, ?_⟩
        intro e he hed
        have hEnd := hW.2.1 e ((hmemday e).mpr ⟨he, hed⟩)
        intro hov
        obtain ⟨hov1, hov2⟩ := hov
        omega
  · exact hfromwalk s hs

/-- **C3** (amended): the per-day cursor is assigned `event.end_time`
(plain assignment, not `max(cursor, event.end)`), so overlapping events can
move it backward and emitted slots can overlap events (see the
counterexample).  When the same-day events are pairwise non-overlapping (or
exact duplicates), have positive length, and are contained in their start
day, no emitted AvailableSlot overlaps any existing event. -/
theorem availability_no_event_overlap (events : List CalEvent) (p : Prefs)
    (days_ahead : Nat) (today : Int)
    (hp1 : 0 ≤ p.work_start) (hp2 : p.work_end ≤ 1440)
    (hp3 : 0 ≤ p.lunch_start) (hp4 : p.lunch_start ≤ 1440)
    (hp5 : 0 ≤ p.lunch_duration)
    (hev : ∀ e ∈ events, e.start_time < e.end_time ∧
      e.end_time ≤ (dateOf e.start_time + 1) * 1440)
    (hpw : ∀ e1 ∈ events, ∀ e2 ∈ events,
      dateOf e1.start_time = dateOf e2.start_time →
      e1.end_time ≤ e2.start_time ∨ e2.end_time ≤ e1.start_time ∨
      (e1.start_time = e2.start_time ∧ e1.end_time = e2.end_time)) :
    ∀ s ∈ find_available_slots events p days_ahead today, ∀ e ∈ events,
      ¬ overlaps s.start_time s.end_time e.start_time e.end_time := by
  intro s hs e he
  rcases List.mem_flatMap.mp hs with ⟨off, _, hsin⟩
  by_cases hwd : weekdayOf (today + (off : Int)) ∈ p.no_work_days
  · rw [if_pos hwd] at hsin
    exact absurd hsin (List.not_mem_nil s)
  · rw [if_neg hwd] at hsin
    have hday := daySlots_no_overlap events p (today + (off : Int))
      hp1 hp2 hp3 hp4 hp5 hev hpw s hsin
    by_cases hed : dateOf e.start_time = today + (off : Int)
    · exact hday.2.2 e he hed
    · have he2 := hev e he
      intro hov
      obtain ⟨hov1, hov2⟩ := hov
      have hds := hday.1
      have hde := hday.2.1
      simp only [dateOf] at hed he2
      omega

/-- Witness for `availability_no_event_overlap`: the Scenario B input — the
slot 09:00–10:00 does not overlap the event 10:00–11:00. -/
theorem availability_no_event_overlap_wit :
    (⟨540, 600, 60, 0, "morning"⟩ : AvailableSlot) ∈
      find_available_slots [{ id := 1, start_time := 600, end_time := 660 }]
        defaultPrefs 1 0 ∧
    ¬ overlaps 540 600 600 660 :=
  ⟨by decide,
   availability_no_event_overlap [{ id := 1, start_time := 600, end_time := 660 }]
     defaultPrefs 1 0 (by decide) (by decide) (by decide) (by decide) (by decide)
     (by decide) (by decide) ⟨540, 600, 60, 0, "morning"⟩ (by decide)
     { id := 1, start_time := 600, end_time := 660 } (by decide)⟩

/-- The cursor walk of the Availability Finder under in-window events whose
end times avoid the half-open lunch window: every emitted slot is contained
in the work window and avoids the lunch window, and the cursor stays at or
after work start and never strictly inside the lunch window. -/
theorem walkEvents_containment (p : Prefs) (d wsA weA lsA leA : Int)
    (hlw : leA ≤ weA) (hlsle : lsA ≤ leA) :
    ∀ (l : List CalEvent) (cur : Int) (acc : List AvailableSlot),
    wsA ≤ cur → ¬(lsA ≤ cur ∧ cur < leA) →
    (∀ e ∈ l, wsA ≤ e.start_time ∧ e.start_time ≤ e.end_time ∧
      e.end_time ≤ weA ∧ ¬(lsA ≤ e.end_time ∧ e.end_time < leA)) →
    (∀ s ∈ (walkEvents p d lsA leA cur l acc).2,
      s ∈ acc ∨ (wsA ≤ s.start_time ∧ s.end_time ≤ weA ∧ s.date = d ∧
        ¬ overlaps s.start_time s.end_time lsA leA)) ∧
    (wsA ≤ (walkEvents p d lsA leA cur l acc).1 ∧
      ¬(lsA ≤ (walkEvents p d lsA leA cur l acc).1 ∧
        (walkEvents p d lsA leA cur l acc).1 < leA)) := by
  intro l
  induction l with
  | nil =>
    intro cur acc hcur1 hcur2 _
    exact ⟨fun s hs => Or.inl hs, hcur1, hcur2⟩
  | cons e rest ih =>
    intro cur acc hcur1 hcur2 hl
    have he_facts := hl e (List.mem_cons_self e rest)
    have hl' : ∀ g ∈ rest, wsA ≤ g.start_time ∧ g.start_time ≤ g.end_time ∧
        g.end_time ≤ weA ∧ ¬(lsA ≤ g.end_time ∧ g.end_time < leA) :=
      fun g hg => hl g (List.mem_cons_of_mem _ hg)
    have hwalk : walkEvents p d lsA leA cur (e :: rest) acc =
        walkEvents p d lsA leA e.end_time rest
          (if cur < e.start_time then (gapSlots p d lsA leA cur e.start_time acc).2
           else acc) := rfl
    have IH := ih e.end_time
      (if cur < e.start_time then (gapSlots p d lsA leA cur e.start_time acc).2 else acc)
      (by omega) (by omega) hl'
    refine ⟨?_, ?_⟩
    · intro s hs
      rw [hwalk] at hs
      rcases IH.1 s hs with hsacc | hgood
      · by_cases hgap : cur < e.start_time
        · rw [if_pos hgap] at hsacc
          rcases gapEmit_mem p d lsA leA _ e.start_time _ s hsacc with
            h1 | ⟨hst, hend, hdate, hcond⟩
          · rcases lunchSplit_mem p d lsA leA cur e.start_time acc s h1 with
              h2 | ⟨hst, hend, hdate, hclt, hlteS⟩
            · exact Or.inl h2
            · right
              refine ⟨by omega, by omega, hdate, ?_⟩
              intro hov
              obtain ⟨hov1, hov2⟩ := hov
              omega
          · rcases lunchSplit_fst p d lsA leA cur e.start_time acc with hc1 | ⟨hc1, hclt⟩
            · right
              refine ⟨by omega, by omega, hdate, ?_⟩
              intro hov
              obtain ⟨hov1, hov2⟩ := hov
              omega
            · right
              refine ⟨by omega, by omega, hdate, ?_⟩
              intro hov
              obtain ⟨hov1, hov2⟩ := hov
              omega
        · rw [if_neg hgap] at hsacc
          exact Or.inl hsacc
      · exact Or.inr hgood
    · rw [hwalk]
      exact IH.2

/-- One day of the Availability Finder on in-window events whose ends avoid
the lunch window: every emitted slot is contained in the day's work window
and avoids the lunch window. -/
theorem daySlots_containment (events : List CalEvent) (p : Prefs) (d : Int)
    (hp1 : p.work_start < p.lunch_start)
    (hp2 : p.lunch_start + p.lunch_duration ≤ p.work_end)
    (hp3 : 0 ≤ p.lunch_duration)
    (hev : ∀ e ∈ events,
      (dateOf e.start_time) * 1440 + p.work_start ≤ e.start_time ∧
      e.start_time ≤ e.end_time ∧
      e.end_time ≤ (dateOf e.start_time) * 1440 + p.work_end ∧
      ¬((dateOf e.start_time) * 1440 + p.lunch_start ≤ e.end_time ∧
        e.end_time < (dateOf e.start_time) * 1440 + p.lunch_start + p.lunch_duration)) :
    ∀ s ∈ daySlots events p d,
      d * 1440 + p.work_start ≤ s.start_time ∧
      s.end_time ≤ d * 1440 + p.work_end ∧ s.date = d ∧
      ¬ overlaps s.start_time s.end_time (d * 1440 + p.lunch_start)
        (d * 1440 + p.lunch_start + p.lunch_duration) := by
  intro s hs
  simp only [daySlots] at hs
  have hlL : ∀ e ∈ (List.insertionSort (fun a b => a.start_time ≤ b.start_time)
      (events.filter (fun e => dateOf e.start_time = d))),
      d * 1440 + p.work_start ≤ e.start_time ∧ e.start_time ≤ e.end_time ∧
      e.end_time ≤ d * 1440 + p.work_end ∧
      ¬(d * 1440 + p.lunch_start ≤ e.end_time ∧
        e.end_time < d * 1440 + p.lunch_start + p.lunch_duration) := by
    intro e he
    rw [List.mem_insertionSort, List.mem_filter] at he
    have hed : dateOf e.start_time = d := by simpa using he.2
    have hef := hev e he.1
    rw [hed] at hef
    exact hef
  have hW := walkEvents_containment p d (d * 1440 + p.work_start)
    (d * 1440 + p.work_end) (d * 1440 + p.lunch_start)
    (d * 1440 + p.lunch_start + p.lunch_duration) (by omega) (by omega)
    (List.insertionSort (fun a b => a.start_time ≤ b.start_time)
      (events.filter (fun e => dateOf e.start_time = d)))
    (d * 1440 + p.work_start) [] (le_refl _) (by omega) hlL
  have hfromwalk : ∀ t ∈ (walkEvents p d (d * 1440 + p.lunch_start)
      (d * 1440 + p.lunch_start + p.lunch_duration) (d * 1440 + p.work_start)
      (List.insertionSort (fun a b => a.start_time ≤ b.start_time)
        (events.filter (fun e => dateOf e.start_time = d))) []).2,
      d * 1440 + p.work_start ≤ t.start_time ∧
      t.end_time ≤ d * 1440 + p.work_end ∧ t.date = d ∧
      ¬ overlaps t.start_time t.end_time (d * 1440 + p.lunch_start)
        (d * 1440 + p.lunch_start + p.lunch_duration) := by
    intro t ht
    rcases hW.1 t ht with habs | hgood
    · exact absurd habs (List.not_mem_nil t)
    · exact hgood
  have hWcur := hW.2
  unfold trailingSlots at hs
  split at hs
  · rcases trailEmit_mem p d (d * 1440 + p.work_end)
        (trailLunch p d (d * 1440 + p.lunch_start)
          (d * 1440 + p.lunch_start + p.lunch_duration)
          (walkEvents p d (d * 1440 + p.lunch_start)
            (d * 1440 + p.lunch_start + p.lunch_duration) (d * 1440 + p.work_start)
            (List.insertionSort (fun a b => a.start_time ≤ b.start_time)
              (events.filter (fun e => dateOf e.start_time = d))) []).1
          (walkEvents p d (d * 1440 + p.lunch_start)
            (d * 1440 + p.lunch_start + p.lunch_duration) (d * 1440 + p.work_start)
            (List.insertionSort (fun a b => a.start_time ≤ b.start_time)
              (events.filter (fun e => dateOf e.start_time = d))) []).2).1
        (trailLunch p d (d * 1440 + p.lunch_start)
          (d * 1440 + p.lunch_start + p.lunch_duration)
          (walkEvents p d (d * 1440 + p.lunch_start)
            (d * 1440 + p.lunch_start + p.lunch_duration) (d * 1440 + p.work_start)
            (List.insertionSort (fun a b => a.start_time ≤ b.start_time)
              (events.filter (fun e => dateOf e.start_time = d))) []).1
          (walkEvents p d (d * 1440 + p.lunch_start)
            (d * 1440 + p.lunch_start + p.lunch_duration) (d * 1440 + p.work_start)
            (List.insertionSort (fun a b => a.start_time ≤ b.start_time)
              (events.filter (fun e => dateOf e.start_time = d))) []).2).2
        s hs with h1 | ⟨hst, hend, hdate, _⟩
    · rcases trailLunch_mem p d (d * 1440 + p.lunch_start)
          (d * 1440 + p.lunch_start + p.lunch_duration)
          (walkEvents p d (d * 1440 + p.lunch_start)
            (d * 1440 + p.lunch_start + p.lunch_duration) (d * 1440 + p.work_start)
            (List.insertionSort (fun a b => a.start_time ≤ b.start_time)
              (events.filter (fun e => dateOf e.start_time = d))) []).1
          (walkEvents p d (d * 1440 + p.lunch_start)
            (d * 1440 + p.lunch_start + p.lunch_duration) (d * 1440 + p.work_start)
            (List.insertionSort (fun a b => a.start_time ≤ b.start_time)
              (events.filter (fun e => dateOf e.start_time = d))) []).2
          s h1 with h2 | ⟨hst, hend, hdate, hclt⟩
      · exact hfromwalk s h2
      · refine ⟨by omega, by omega, hdate, ?_⟩
        intro hov
        obtain ⟨hov1, hov2⟩ := hov
        omega
    · rcases trailLunch_fst p d (d * 1440 + p.lunch_start)
          (d * 1440 + p.lunch_start + p.lunch_duration)
          (walkEvents p d (d * 1440 + p.lunch_start)
            (d * 1440 + p.lunch_start + p.lunch_duration) (d * 1440 + p.work_start)
            (List.insertionSort (fun a b => a.start_time ≤ b.start_time)
              (events.filter (fun e => dateOf e.start_time = d))) []).1
          (walkEvents p d (d * 1440 + p.lunch_start)
            (d * 1440 + p.lunch_start + p.lunch_duration) (d * 1440 + p.work_start)
            (List.insertionSort (fun a b => a.start_time ≤ b.start_time)
              (events.filter (fun e => dateOf e.start_time = d))) []).2
          with ⟨hc, hnlt⟩ | ⟨hc, hlt⟩
      · refine ⟨by omega, by omega, hdate, ?_⟩
        intro hov
        obtain ⟨hov1, hov2⟩ := hov
        omega
      · refine ⟨by omega, by omega, hdate, ?_⟩
        intro hov
        obtain ⟨hov1, hov2⟩ := hov
        omega
  · exact hfromwalk s hs

/-- **C2** (amended): provided the preferences are well-formed
(`work_start < lunch_start`, lunch window inside work hours), every event
lies within its day's work window, and no event ends inside
`[lunch_start, lunch_start + lunch_duration)`, every returned AvailableSlot
satisfies `work_start ≤ start`, `end ≤ work_end` and does not intersect the
lunch window.  Without the extra hypotheses the finder violates the claim
(see the counterexample: an event ending at 12:30 yields the slot
12:30–18:00 covering half of lunch). -/
theorem availability_slot_containment (events : List CalEvent) (p : Prefs)
    (days_ahead : Nat) (today : Int)
    (hp1 : p.work_start < p.lunch_start)
    (hp2 : p.lunch_start + p.lunch_duration ≤ p.work_end)
    (hp3 : 0 ≤ p.lunch_duration)
    (hev : ∀ e ∈ events,
      (dateOf e.start_time) * 1440 + p.work_start ≤ e.start_time ∧
      e.start_time ≤ e.end_time ∧
      e.end_time ≤ (dateOf e.start_time) * 1440 + p.work_end ∧
      ¬((dateOf e.start_time) * 1440 + p.lunch_start ≤ e.end_time ∧
        e.end_time < (dateOf e.start_time) * 1440 + p.lunch_start + p.lunch_duration)) :
    ∀ s ∈ find_available_slots events p days_ahead today,
      s.date * 1440 + p.work_start ≤ s.start_time ∧
      s.end_time ≤ s.date * 1440 + p.work_end ∧
      ¬ overlaps s.start_time s.end_time (s.date * 1440 + p.lunch_start)
        (s.date * 1440 + p.lunch_start + p.lunch_duration) := by
  intro s hs
  rcases List.mem_flatMap.mp hs with ⟨off, _, hsin⟩
  by_cases hwd : weekdayOf (today + (off : Int)) ∈ p.no_work_days
  · rw [if_pos hwd] at hsin
    exact absurd hsin (List.not_mem_nil s)
  · rw [if_neg hwd] at hsin
    obtain ⟨h1, h2, hdate, h3⟩ :=
      daySlots_containment events p (today + (off : Int)) hp1 hp2 hp3 hev s hsin
    rw [hdate]
    exact ⟨h1, h2, h3⟩

/-- Witness for `availability_slot_containment`: the Scenario B input — the
slot 09:00–10:00 is inside the work window and does not meet lunch. -/
theorem availability_slot_containment_wit :
    (⟨540, 600, 60, 0, "morning"⟩ : AvailableSlot) ∈
      find_available_slots [{ id := 1, start_time := 600, end_time := 660 }]
        defaultPrefs 1 0 ∧
    ((0 : Int) * 1440 + defaultPrefs.work_start ≤ 540 ∧
      (600 : Int) ≤ 0 * 1440 + defaultPrefs.work_end ∧
      ¬ overlaps 540 600 (0 * 1440 + defaultPrefs.lunch_start)
        (0 * 1440 + defaultPrefs.lunch_start + defaultPrefs.lunch_duration)) :=
  ⟨by decide,
   availability_slot_containment [{ id := 1, start_time := 600, end_time := 660 }]
     defaultPrefs 1 0 (by decide) (by decide) (by decide) (by decide)
     ⟨540, 600, 60, 0, "morning"⟩ (by decide)⟩

end Aurora
